import Mathlib

/-!
OpenC3 burst protocol: a shallow embedding of `burst_protocol.c`.

The C extension implements three Ruby methods of `OpenC3::BurstProtocol`:
`read_data`, `handle_sync_pattern` and `reduce_to_single_packet`.  The
instance variables `@data`, `@extra` and `@sync_state` become an explicit
state record that every operation threads through; the calls to the
`log_discard` method and to `super` are recorded in the result.
-/

namespace BurstProtocol

/-- One byte of a binary Ruby string.  The code only moves bytes around and
compares them for equality, so a byte is represented by its numeric value. -/
abbrev Byte := Nat

/-- The Ruby symbols `read_data` tests a packet against. -/
inductive Sym where
  | STOP
  | DISCONNECT
  | RESYNC
deriving DecidableEq, Repr

/-- The two values `@sync_state` takes. -/
inductive SyncState where
  | SEARCHING
  | FOUND
deriving DecidableEq, Repr

/-- The range check of `FIX2INT` (line 162): the Integer fits a C `int`.
Outside this range `FIX2INT` raises `RangeError` before anything is cut off
the packet. -/
def fits_c_int (n : Int) : Bool := decide (-2147483648 ≤ n ∧ n ≤ 2147483647)

/-- Construction-time configuration: `@sync_pattern` (`none` is `nil`) and the
Integer held by `@discard_leading_bytes`.  The field is not bounded by its
type: what the embedding says about the cut of lines 161-166 is what the code
does for the values with `fits_c_int`, the ones `FIX2INT` converts. -/
structure Config where
  sync_pattern : Option (List Byte)
  discard_leading_bytes : Int
deriving DecidableEq, Repr

/-- The mutable instance variables: `@data`, `@extra` (`none` is `nil`) and
`@sync_state`. -/
structure State (E : Type) where
  data : List Byte
  extra : Option E
  sync_state : SyncState
deriving DecidableEq, Repr

/-- One call of `log_discard(count, matched)`. -/
abbrev Discard := Nat × Bool

/-- What `packet_data` can hold in `read_data`: `nil`, a Symbol or a String. -/
inductive PacketData where
  | nil
  | sym (s : Sym)
  | str (bytes : List Byte)
deriving DecidableEq, Repr

/-- The shapes of the value `reduce_to_single_packet` returns that `read_data`
tells apart: a value that is not an Array, or an Array of length 0, 1 or more
than 1 (of which only the entries 0 and 1 are read). -/
inductive Reduced (E : Type) where
  | bare (v : PacketData)
  | array0
  | array1 (v : PacketData)
  | array2 (v : PacketData) (extra : Option E)
deriving DecidableEq, Repr

/-- The ways the embedded code fails: the Ruby exception `TypeError`, and the
read of a String header from a value that is not a String (`InvalidRead`, which
is no Ruby exception: the C code has no defined result there). -/
inductive RubyError where
  | TypeError
  | InvalidRead
deriving DecidableEq, Repr

/-- What `read_data` hands back: the bare control symbol of line 96, the
two-element array `[packet_data, extra]` of lines 152-155 and 168-171, or an
exception raised on the way. -/
inductive Outcome (E : Type) where
  | symbol (s : Sym)
  | pair (v : PacketData) (extra : Option E)
  | raised (err : RubyError)
deriving DecidableEq, Repr

/-- The observable result of one `read_data` call: the returned value, the
instance variables afterwards, the `log_discard` calls in order, and the
argument lists of the `rb_call_super` calls in order. -/
structure ReadResult (E : Type) where
  ret : Outcome E
  state : State E
  discards : List Discard
  forwards : List (List Byte × Option E)
deriving DecidableEq, Repr

/-- The result of `handle_sync_pattern`: the control code (`none` is `nil`),
the instance variables afterwards and the `log_discard` calls in order. -/
structure SyncResult (E : Type) where
  control : Option Sym
  state : State E
  discards : List Discard
deriving DecidableEq, Repr

/-- Ruby's `rb_str_substr(str, beg, len)` on a binary string: `nil` for a
negative length or a start beyond the end, a negative start counts from the
end, and the length is cut down to what is left of the string. -/
def rb_str_substr (s : List Byte) (beg len : Int) : Option (List Byte) :=
  let blen : Int := s.length
  if len < 0 then none
  else if beg > blen then none
  else
    let beg1 := if beg < 0 then beg + blen else beg
    if beg1 < 0 then none
    else
      let len1 := if len > blen - beg1 then blen - beg1 else len
      some ((s.drop beg1.toNat).take len1.toNat)

/-- The scan of lines 206-215: the index of the first byte of `data` equal to
`b`, if there is one. -/
def find_sync_index (b : Byte) : List Byte → Option Nat
  | [] => none
  | d :: ds => if d = b then some 0 else (find_sync_index b ds).map (· + 1)

/-- The comparison of lines 226-236 over the bytes of `data` from `sync_index`
on: `found` stays 1 when every pattern byte equals the data byte at the same
offset. -/
def sync_found : List Byte → List Byte → Bool
  | _, [] => true
  | [], _ :: _ => false
  | d :: ds, p :: ps => if d ≠ p then false else sync_found ds ps

/-- The `while (1)` loop of `handle_sync_pattern` (lines 194-263) over the
buffer `data`; every turn that does not return removes at least one byte, so
`fuel` bounds the number of turns.  The result is the control code, the buffer
left, the discard events and whether the sync state became `FOUND`; `none`
means the fuel ran out.  `pattern.headD 0` is `char_sync_pattern[0]`, which for
an empty pattern is the terminating NUL of the Ruby string. -/
def sync_loop (pattern : List Byte) :
    Nat → List Byte → Option (Option Sym × List Byte × List Discard × Bool)
  | 0, _ => none
  | fuel + 1, data =>
    if data.length < pattern.length then
      some (some Sym.STOP, data, [], false)
    else
      match find_sync_index (pattern.headD 0) data with
      | some sync_index =>
        if data.length < sync_index + pattern.length then
          some (some Sym.STOP, data, [], false)
        else if sync_found (data.drop sync_index) pattern then
          if sync_index ≠ 0 then
            some (none, data.drop sync_index, [(sync_index, true)], true)
          else
            some (none, data, [], true)
        else
          match sync_loop pattern fuel (data.drop (sync_index + 1)) with
          | some (control, rest, events, found) =>
            some (control, rest, (sync_index + 1, false) :: events, found)
          | none => none
      | none =>
        some (some Sym.STOP, [], [(data.length, false)], false)

/-- The method `handle_sync_pattern` (lines 176-267): a no-op returning `nil`
unless a sync pattern is configured and the state is `SEARCHING`. -/
def handle_sync_pattern {E : Type} (cfg : Config) (st : State E) : Option (SyncResult E) :=
  match cfg.sync_pattern with
  | some pattern =>
    if st.sync_state = SyncState.SEARCHING then
      match sync_loop pattern (st.data.length + 1) st.data with
      | some (control, rest, events, found) =>
        some ⟨control,
          ⟨rest, st.extra, if found then SyncState.FOUND else st.sync_state⟩, events⟩
      | none => none
    else
      some ⟨none, st, []⟩
  | none => some ⟨none, st, []⟩

/-- The method `reduce_to_single_packet` (lines 269-289): `:STOP` on an empty
buffer, else the whole buffer with `@extra`, and the buffer is cleared. -/
def reduce_to_single_packet {E : Type} (st : State E) : Reduced E × State E :=
  if st.data.length ≤ 0 then
    (Reduced.bare (PacketData.sym Sym.STOP), st)
  else
    (Reduced.array2 (PacketData.str st.data) st.extra, ⟨[], st.extra, st.sync_state⟩)

/-- Lines 101-125 of `read_data`: the packet and the working `extra` taken out
of the value `reduce_to_single_packet` returned. -/
def unpack_result {E : Type} : Reduced E → PacketData × Option E
  | Reduced.bare v => (v, none)
  | Reduced.array0 => (PacketData.nil, none)
  | Reduced.array1 v => (v, none)
  | Reduced.array2 v extra => (v, extra)

/-- Lines 161-171 of `read_data`, for a `discard_leading_bytes` that
`FIX2INT` converts (`fits_c_int`; the `RangeError` it raises otherwise is not
embedded): the leading bytes are cut off the packet with `rb_str_substr`, and
`rb_str_replace` raises `TypeError` when it is handed `nil`.  On a packet that
is not a String, line 165 reads `RSTRING_LEN` of it: `InvalidRead`. -/
def discard_leading {E : Type} (cfg : Config) (packet_data : PacketData) (extra : Option E) :
    Outcome E :=
  if cfg.discard_leading_bytes > 0 then
    match packet_data with
    | PacketData.str bytes =>
      match rb_str_substr bytes cfg.discard_leading_bytes
          ((bytes.length : Int) - cfg.discard_leading_bytes) with
      | some rest => Outcome.pair (PacketData.str rest) extra
      | none => Outcome.raised RubyError.TypeError
    | _ => Outcome.raised RubyError.InvalidRead
  else
    Outcome.pair packet_data extra

/-- How one turn of the `while (1)` loop of `read_data` ends: with `continue`
(the state and the discard events so far are carried on) or with a `return`. -/
inductive Turn (E : Type) where
  | again (st : State E) (log : List Discard)
  | done (r : ReadResult E)

/-- Lines 99-172 of `read_data`: the packet is taken from `reduce`, a
`:RESYNC` resets the sync state (and restarts the loop when the chunk is not
empty), a Symbol is passed to `super` on an empty chunk unless it is
`:DISCONNECT` and is returned otherwise, and a packet is returned after the
sync state went back to `SEARCHING` and the leading bytes were cut off. -/
def extract_turn {E : Type} (cfg : Config) (reduce : State E → Reduced E × State E)
    (chain : List Byte → Option E → Outcome E) (data : List Byte)
    (st : State E) (log : List Discard) : Turn E :=
  let reduced := reduce st
  let packet_data := (unpack_result reduced.1).1
  let extra := (unpack_result reduced.1).2
  let st2 : State E :=
    if packet_data = PacketData.sym Sym.RESYNC then
      ⟨reduced.2.data, reduced.2.extra, SyncState.SEARCHING⟩
    else reduced.2
  if packet_data = PacketData.sym Sym.RESYNC ∧ data.length > 0 then
    Turn.again st2 log
  else
    match packet_data with
    | PacketData.sym s =>
      if data.length ≤ 0 ∧ s ≠ Sym.DISCONNECT then
        Turn.done ⟨chain data extra, st2, log, [(data, extra)]⟩
      else
        Turn.done ⟨Outcome.pair (PacketData.sym s) extra, st2, log, []⟩
    | _ =>
      Turn.done ⟨discard_leading cfg packet_data extra,
        ⟨st2.data, st2.extra, SyncState.SEARCHING⟩, log, []⟩

/-- One turn of the `while (1)` loop of `read_data` (lines 92-172): the
control code of `handle_sync_pattern` is returned as it is when it is truthy
and the chunk is not empty; in every other case the turn goes on to the
extraction.  `none` means `handle_sync_pattern` did not return. -/
def read_turn {E : Type} (cfg : Config) (reduce : State E → Reduced E × State E)
    (chain : List Byte → Option E → Outcome E) (data : List Byte)
    (st : State E) (log : List Discard) : Option (Turn E) :=
  match handle_sync_pattern cfg st with
  | none => none
  | some sync =>
    match sync.control with
    | some s =>
      if data.length > 0 then
        some (Turn.done ⟨Outcome.symbol s, sync.state, log ++ sync.discards, []⟩)
      else
        some (extract_turn cfg reduce chain data sync.state (log ++ sync.discards))
    | none =>
      some (extract_turn cfg reduce chain data sync.state (log ++ sync.discards))

/-- The `while (1)` loop of `read_data` (lines 90-172).  `reduce` is the
method `reduce_to_single_packet` the object answers to, `chain` is the value
of `super(data, extra)`, `data` is the chunk passed to the call.  The loop
only repeats on `:RESYNC` with a non-empty chunk; `none` means the fuel ran
out. -/
def read_loop {E : Type} (cfg : Config) (reduce : State E → Reduced E × State E)
    (chain : List Byte → Option E → Outcome E) (data : List Byte) :
    Nat → State E → List Discard → Option (ReadResult E)
  | 0, _, _ => none
  | fuel + 1, st, log =>
    match read_turn cfg reduce chain data st log with
    | none => none
    | some (Turn.again st2 log2) => read_loop cfg reduce chain data fuel st2 log2
    | some (Turn.done r) => some r

/-- The state and the discard events with which the `while (1)` loop of
`read_data` starts its turn number `n` (counted from 0), every turn before
having ended with the `continue` of line 133; `none` when one of them returned
or `handle_sync_pattern` did not return. -/
def turn_start {E : Type} (cfg : Config) (reduce : State E → Reduced E × State E)
    (chain : List Byte → Option E → Outcome E) (data : List Byte) :
    Nat → State E → List Discard → Option (State E × List Discard)
  | 0, st, log => some (st, log)
  | n + 1, st, log =>
    match read_turn cfg reduce chain data st log with
    | some (Turn.again st2 log2) => turn_start cfg reduce chain data n st2 log2
    | _ => none

/-- Lines 83-88 of `read_data`: the chunk is appended to `@data`, and `@extra`
is overwritten unless the chunk is empty and `extra` is not truthy. -/
def append_input {E : Type} (st : State E) (data : List Byte) (extra : Option E) : State E :=
  ⟨st.data ++ data,
    if ¬ (data.length = 0 ∧ extra.isNone) then extra else st.extra,
    st.sync_state⟩

/-- The method `read_data` (lines 54-173) over an arbitrary extractor. -/
def read_data_with {E : Type} (cfg : Config) (reduce : State E → Reduced E × State E)
    (chain : List Byte → Option E → Outcome E) (fuel : Nat)
    (st : State E) (data : List Byte) (extra : Option E) : Option (ReadResult E) :=
  read_loop cfg reduce chain data fuel (append_input st data extra) []

/-- The method `read_data` of the burst protocol itself, whose extractor is
`reduce_to_single_packet`. -/
def read_data {E : Type} (cfg : Config) (chain : List Byte → Option E → Outcome E)
    (fuel : Nat) (st : State E) (data : List Byte) (extra : Option E) :
    Option (ReadResult E) :=
  read_data_with cfg reduce_to_single_packet chain fuel st data extra

/-- Modelled from the spec: the base class method behind `super` is not part of
the sources; §4.4 has the terminal stage of a chain answer a probe it cannot
satisfy with `Control(STOP, extra)`. -/
def terminal_stage {E : Type} (_data : List Byte) (extra : Option E) : Outcome E :=
  Outcome.pair (PacketData.sym Sym.STOP) extra

/-- A sequence of `read_data` calls, each starting from the state the one
before left; the results are listed in call order. -/
def read_all {E : Type} (cfg : Config) (chain : List Byte → Option E → Outcome E)
    (fuel : Nat) : State E → List (List Byte × Option E) → Option (List (ReadResult E))
  | _, [] => some []
  | st, (data, extra) :: calls =>
    match read_data cfg chain fuel st data extra with
    | none => none
    | some r =>
      match read_all cfg chain fuel r.state calls with
      | none => none
      | some rs => some (r :: rs)

/-- The STOP control outcome, in either shape the code returns it: the bare
symbol `:STOP` or the array `[:STOP, extra]`. -/
def Outcome.is_stop {E : Type} : Outcome E → Bool
  | Outcome.symbol Sym.STOP => true
  | Outcome.pair (PacketData.sym Sym.STOP) _ => true
  | _ => false

/-- The freshly constructed protocol: empty buffer, no extra, `SEARCHING`. -/
def initial_state {E : Type} : State E := ⟨[], none, SyncState.SEARCHING⟩

/-- How one turn of the `while (1)` loop of `handle_sync_pattern` ends: with
`return symbol_STOP`, with `return Qnil` after the sync state became `FOUND`,
or with `continue`; each carries the buffer left and what was logged. -/
inductive SyncTurn where
  | stop (rest : List Byte) (events : List Discard)
  | found (rest : List Byte) (events : List Discard)
  | again (rest : List Byte) (event : Discard)
deriving DecidableEq, Repr

/-- One turn of the `while (1)` loop of `handle_sync_pattern` (lines 196-262)
over the buffer `data`. -/
def sync_turn (pattern data : List Byte) : SyncTurn :=
  if data.length < pattern.length then
    SyncTurn.stop data []
  else
    match find_sync_index (pattern.headD 0) data with
    | some sync_index =>
      if data.length < sync_index + pattern.length then
        SyncTurn.stop data []
      else if sync_found (data.drop sync_index) pattern then
        if sync_index ≠ 0 then
          SyncTurn.found (data.drop sync_index) [(sync_index, true)]
        else
          SyncTurn.found data []
      else
        SyncTurn.again (data.drop (sync_index + 1)) (sync_index + 1, false)
    | none =>
      SyncTurn.stop [] [(data.length, false)]

/-- The number of turns the loop of `handle_sync_pattern` takes on `data`;
`none` when it takes more than `fuel` turns. -/
def sync_loop_turns (pattern : List Byte) : Nat → List Byte → Option Nat
  | 0, _ => none
  | fuel + 1, data =>
    match sync_turn pattern data with
    | SyncTurn.again rest _ => (sync_loop_turns pattern fuel rest).map (· + 1)
    | _ => some 1

/-- The sum of the counts of a list of `log_discard` calls. -/
def discard_count (events : List Discard) : Nat :=
  (events.map Prod.fst).sum

/-- The sum of the counts of all `log_discard` calls of a list of reads. -/
def discard_total {E : Type} : List (ReadResult E) → Nat
  | [] => 0
  | r :: rs => discard_count r.discards + discard_total rs

/-- The instance variables after a list of reads that started from `st`. -/
def state_after {E : Type} : State E → List (ReadResult E) → State E
  | st, [] => st
  | _, r :: rs => state_after r.state rs

/-- The bytes handed to a list of reads, in order: the chunks concatenated. -/
def stream_of {E : Type} : List (List Byte × Option E) → List Byte
  | [] => []
  | (data, _) :: calls => data ++ stream_of calls

/-- The raw payload one `read_data` call of the burst protocol takes out of the
buffer (the clone of `@data` of line 282), before any leading bytes are cut
off; empty when the call returns at line 96 or `reduce_to_single_packet` finds
the buffer empty. -/
def raw_payload {E : Type} (cfg : Config) (st : State E) (data : List Byte)
    (extra : Option E) : List Byte :=
  match handle_sync_pattern cfg (append_input st data extra) with
  | none => []
  | some sync =>
    if sync.control.isSome ∧ data.length > 0 then []
    else
      match (reduce_to_single_packet sync.state).1 with
      | Reduced.array2 (PacketData.str p) _ => p
      | _ => []

/-- The raw payloads of a sequence of `read_data` calls, one per call, each
call starting from the state the one before left. -/
def raw_payloads {E : Type} (cfg : Config) (chain : List Byte → Option E → Outcome E)
    (fuel : Nat) : State E → List (List Byte × Option E) → List (List Byte)
  | _, [] => []
  | st, (data, extra) :: calls =>
    raw_payload cfg st data extra ::
      match read_data cfg chain fuel st data extra with
      | none => []
      | some r => raw_payloads cfg chain fuel r.state calls

/-- The sum of the lengths of a list of payloads. -/
def payload_total (payloads : List (List Byte)) : Nat :=
  (payloads.map List.length).sum

end BurstProtocol

namespace ConfigParser

/-- The method `String#remove_quotes` (`string_remove_quotes`, lines 51-76 of
`config_parser.c`) over the bytes of the string: `s.getD 0 0` is `ptr[0]` and
`s.getD (s.length - 1) 0` is `ptr[length - 1]`; 34 and 39 are the double and
the single quote. -/
def string_remove_quotes (s : List Nat) : List Nat :=
  if s.length < 2 then s
  else
    let first_char := s.getD 0 0
    if first_char ≠ 34 ∧ first_char ≠ 39 then s
    else
      let last_char := s.getD (s.length - 1) 0
      if last_char ≠ first_char then s
      else (s.drop 1).take (s.length - 2)

/-- The bytes `rb_str_cat2(first_item, RSTRING_PTR(s))` appends: those of the C
string the pointer leads to, which ends at the first NUL byte (the terminator
of the Ruby string when `s` holds no NUL byte itself). -/
def c_string (s : List Nat) : List Nat :=
  s.takeWhile (fun b => b ≠ 0)

/-- Ruby's `String#upcase` on a binary string, as `rb_str_new2` makes them: the
bytes of the ASCII letters `a`-`z` (97-122) become those of `A`-`Z`, every
other byte stays. -/
def ascii_upcase (s : List Nat) : List Nat :=
  s.map (fun b => if 97 ≤ b ∧ b ≤ 122 then b - 32 else b)

/-- The test of lines 235-241 of `parse_loop` that ends the parameter loop: the
token starts with `#` (35) and does not go on with `{` (123). -/
def trailing_comment (string : List Nat) : Bool :=
  (decide (string.length > 0) && decide (string.getD 0 0 = 35))
    && !(decide (string.length > 1) && decide (string.getD 1 0 = 123))

/-- The `for` loop of lines 225-251 of `parse_loop` over the tokens after the
first: it stops at a trailing comment and pushes every token before it, passed
through `string_remove_quotes` when `remove_quotes` is truthy. -/
def collect_parameters (remove_quotes : Bool) : List (List Nat) → List (List Nat)
  | [] => []
  | string :: rest =>
    if trailing_comment string then []
    else
      (if remove_quotes then string_remove_quotes string else string)
        :: collect_parameters remove_quotes rest

/-- What `parse_loop` does with one logical line: the values of `@keyword`
(`none` is `nil`) and `@parameters`, and whether the block is called with the
two. -/
structure LineResult where
  keyword : Option (List Nat)
  parameters : List (List Nat)
  yielded : Bool
deriving DecidableEq, Repr

/-- Lines 183-264 of `parse_loop`, for a logical line on which `scan` returned
the tokens `data`.  `upcase` is the method `String#upcase`. -/
def parse_loop_line (upcase : List Nat → List Nat)
    (yield_non_keyword_lines remove_quotes : Bool) (data : List (List Nat)) : LineResult :=
  let first_item : List Nat :=
    match data with
    | [] => []
    | entry :: _ => c_string entry
  let ivar_keyword : Option (List Nat) :=
    if first_item.length = 0 ∨ first_item.getD 0 0 = 35 then none
    else some (upcase first_item)
  match ivar_keyword with
  | none => ⟨none, [], yield_non_keyword_lines⟩
  | some keyword =>
    ⟨some keyword,
      if data.length > 1 then collect_parameters remove_quotes (data.drop 1) else [],
      true⟩

end ConfigParser

namespace ReducerMicroservice

/-- A value held in the `reduced` Hash: an Integer, or an Array of the
Integers collected so far. -/
inductive RValue where
  | int (v : Int)
  | array (vs : List Int)
deriving DecidableEq, Repr

/-- A Ruby Hash with String keys: its entries in insertion order, the keys
compared by their bytes. -/
abbrev Hash := List (List Nat × RValue)

/-- Ruby's `rb_hash_aref(hash, key)`; `none` is `nil`. -/
def rb_hash_aref : Hash → List Nat → Option RValue
  | [], _ => none
  | (k, v) :: rest, key => if k = key then some v else rb_hash_aref rest key

/-- Ruby's `rb_hash_aset(hash, key, value)`: the entry of the key is replaced
where it stands, or a new entry is added at the end. -/
def rb_hash_aset : Hash → List Nat → RValue → Hash
  | [], key, value => [(key, value)]
  | (k, v) :: rest, key, value =>
    if k = key then (key, value) :: rest else (k, v) :: rb_hash_aset rest key value

/-- The six statistics kept per item. -/
inductive StatKind where
  | VALS
  | N
  | X
  | CVALS
  | CN
  | CX
deriving DecidableEq, Repr

/-- The string appended to the item key for a statistic: `"__VALS"`, `"__N"`,
`"__X"`, `"__CVALS"`, `"__CN"`, `"__CX"` (95 is `_`). -/
def StatKind.str : StatKind → List Nat
  | StatKind.VALS => [95, 95, 86, 65, 76, 83]
  | StatKind.N => [95, 95, 78]
  | StatKind.X => [95, 95, 88]
  | StatKind.CVALS => [95, 95, 67, 86, 65, 76, 83]
  | StatKind.CN => [95, 95, 67, 78]
  | StatKind.CX => [95, 95, 67, 88]

/-- Lines 49-55 (and 98-104): the Array under `vals_key`, a new one when the
entry is not truthy, gets the value pushed.  `none`: the entry is not an
Array. -/
def push_value (reduced : Hash) (vals_key : List Nat) (value : Int) : Option Hash :=
  match rb_hash_aref reduced vals_key with
  | none => some (rb_hash_aset reduced vals_key (RValue.array [value]))
  | some (RValue.array vs) =>
    some (rb_hash_aset reduced vals_key (RValue.array (vs ++ [value])))
  | some (RValue.int _) => none

/-- Lines 59-68 (and 108-117): the entry under `n_key` is set to the value when
it is not truthy, and again when `value < reduced_entry`.  `none`: the
comparison with an Array raises. -/
def keep_min (reduced : Hash) (n_key : List Nat) (value : Int) : Option Hash :=
  let reduced_entry : RValue :=
    match rb_hash_aref reduced n_key with
    | none => RValue.int value
    | some entry => entry
  let reduced1 : Hash :=
    match rb_hash_aref reduced n_key with
    | none => rb_hash_aset reduced n_key (RValue.int value)
    | some _ => reduced
  match reduced_entry with
  | RValue.int entry =>
    if value < entry then some (rb_hash_aset reduced1 n_key (RValue.int value))
    else some reduced1
  | RValue.array _ => none

/-- Lines 72-81 (and 121-130): the entry under `x_key` is set to the value when
it is not truthy, and again when `value > reduced_entry`.  `none`: the
comparison with an Array raises. -/
def keep_max (reduced : Hash) (x_key : List Nat) (value : Int) : Option Hash :=
  let reduced_entry : RValue :=
    match rb_hash_aref reduced x_key with
    | none => RValue.int value
    | some entry => entry
  let reduced1 : Hash :=
    match rb_hash_aref reduced x_key with
    | none => rb_hash_aset reduced x_key (RValue.int value)
    | some _ => reduced
  match reduced_entry with
  | RValue.int entry =>
    if value > entry then some (rb_hash_aset reduced1 x_key (RValue.int value))
    else some reduced1
  | RValue.array _ => none

/-- The callback `reducer_microservice_update_min_stats_raw_value` (lines
38-85); a `nil` value (`none`) is skipped. -/
def reducer_microservice_update_min_stats_raw_value (key : List Nat) (value : Option Int)
    (reduced : Hash) : Option Hash :=
  match value with
  | none => some reduced
  | some v =>
    match push_value reduced (key ++ StatKind.VALS.str) v with
    | none => none
    | some reduced1 =>
      match keep_min reduced1 (key ++ StatKind.N.str) v with
      | none => none
      | some reduced2 => keep_max reduced2 (key ++ StatKind.X.str) v

/-- The callback `reducer_microservice_update_min_stats_converted_value` (lines
87-134); a `nil` value (`none`) is skipped. -/
def reducer_microservice_update_min_stats_converted_value (key : List Nat)
    (value : Option Int) (reduced : Hash) : Option Hash :=
  match value with
  | none => some reduced
  | some v =>
    match push_value reduced (key ++ StatKind.CVALS.str) v with
    | none => none
    | some reduced1 =>
      match keep_min reduced1 (key ++ StatKind.CN.str) v with
      | none => none
      | some reduced2 => keep_max reduced2 (key ++ StatKind.CX.str) v

/-- Ruby's `rb_hash_foreach(hash, func, reduced)` over the entries of a Hash of
item values, in order; the callback works on `reduced`. -/
def rb_hash_foreach (func : List Nat → Option Int → Hash → Option Hash) :
    List (List Nat × Option Int) → Hash → Option Hash
  | [], reduced => some reduced
  | (key, value) :: rest, reduced =>
    match func key value reduced with
    | none => none
    | some reduced1 => rb_hash_foreach func rest reduced1

/-- The method `update_min_stats` (lines 136-148) on `reduced`, for a packet
state with the given raw and converted values. -/
def reducer_microservice_update_min_stats (reduced : Hash)
    (raw_values converted_values : List (List Nat × Option Int)) : Option Hash :=
  match rb_hash_foreach reducer_microservice_update_min_stats_raw_value raw_values reduced with
  | none => none
  | some reduced1 =>
    rb_hash_foreach reducer_microservice_update_min_stats_converted_value converted_values
      reduced1

/-- A sequence of `update_min_stats` calls on the same `reduced` Hash. -/
def update_all : Hash → List (List (List Nat × Option Int) × List (List Nat × Option Int)) →
    Option Hash
  | reduced, [] => some reduced
  | reduced, (raw_values, converted_values) :: rest =>
    match reducer_microservice_update_min_stats reduced raw_values converted_values with
    | none => none
    | some reduced1 => update_all reduced1 rest

/-- The three statistics of the raw values (`false`) or of the converted
values (`true`): the list, the minimum and the maximum. -/
def vals_kind (converted : Bool) : StatKind :=
  if converted then StatKind.CVALS else StatKind.VALS

def n_kind (converted : Bool) : StatKind :=
  if converted then StatKind.CN else StatKind.N

def x_kind (converted : Bool) : StatKind :=
  if converted then StatKind.CX else StatKind.X

/-- The body the two callbacks share, for the raw values (`false`) or the
converted values (`true`). -/
def stat_item (converted : Bool) (key : List Nat) (value : Option Int) (reduced : Hash) :
    Option Hash :=
  match value with
  | none => some reduced
  | some v =>
    match push_value reduced (key ++ (vals_kind converted).str) v with
    | none => none
    | some reduced1 =>
      match keep_min reduced1 (key ++ (n_kind converted).str) v with
      | none => none
      | some reduced2 => keep_max reduced2 (key ++ (x_kind converted).str) v

/-- The list held under a key, empty when there is none. -/
def previous_list (reduced : Hash) (key : List Nat) : List Int :=
  match rb_hash_aref reduced key with
  | some (RValue.array vs) => vs
  | _ => []

/-- The Integer held under a key, `value` when there is none. -/
def previous_value (reduced : Hash) (key : List Nat) (value : Int) : Int :=
  match rb_hash_aref reduced key with
  | some (RValue.int entry) => entry
  | _ => value

def StatKind.is_list : StatKind → Bool
  | StatKind.VALS => true
  | StatKind.CVALS => true
  | _ => false

def RValue.is_array : RValue → Bool
  | RValue.array _ => true
  | RValue.int _ => false

/-- The entries of `reduced` under statistics keys hold what the callbacks
expect: Arrays under `__VALS` and `__CVALS`, Integers under the other four. -/
def well_typed (reduced : Hash) : Prop :=
  ∀ (key : List Nat) (kind : StatKind) (entry : RValue),
    rb_hash_aref reduced (key ++ kind.str) = some entry → entry.is_array = kind.is_list

/-- The value `m` is the minimum of the list. -/
def is_min_of (m : Int) (vs : List Int) : Prop :=
  m ∈ vs ∧ ∀ y ∈ vs, m ≤ y

/-- The value `x` is the maximum of the list. -/
def is_max_of (x : Int) (vs : List Int) : Prop :=
  x ∈ vs ∧ ∀ y ∈ vs, y ≤ x

/-- The statistics of an item agree: none of the three is there, or the list
is, with its minimum and its maximum under the other two keys. -/
def stats_agree (reduced : Hash) (converted : Bool) (key : List Nat) : Prop :=
  (rb_hash_aref reduced (key ++ (vals_kind converted).str) = none
      ∧ rb_hash_aref reduced (key ++ (n_kind converted).str) = none
      ∧ rb_hash_aref reduced (key ++ (x_kind converted).str) = none)
  ∨ ∃ vs m x, rb_hash_aref reduced (key ++ (vals_kind converted).str) = some (RValue.array vs)
      ∧ rb_hash_aref reduced (key ++ (n_kind converted).str) = some (RValue.int m)
      ∧ rb_hash_aref reduced (key ++ (x_kind converted).str) = some (RValue.int x)
      ∧ is_min_of m vs ∧ is_max_of x vs

end ReducerMicroservice

namespace BurstProtocol

/-! ## The scan and the comparison -/

theorem find_sync_index_none (b : Byte) (data : List Byte) :
    find_sync_index b data = none ↔ ∀ x ∈ data, x ≠ b := by
  induction data with
  | nil => simp [find_sync_index]
  | cons d ds ih =>
    by_cases h : d = b
    · simp [find_sync_index, h]
    · simp [find_sync_index, h, ih]

theorem find_sync_index_some (b : Byte) (data : List Byte) (i : Nat)
    (h : find_sync_index b data = some i) :
    ∃ pre post, data = pre ++ b :: post ∧ pre.length = i ∧ ∀ x ∈ pre, x ≠ b := by
  induction data generalizing i with
  | nil => simp [find_sync_index] at h
  | cons d ds ih =>
    by_cases hd : d = b
    · simp [find_sync_index, hd] at h
      subst h
      exact ⟨[], ds, by simp [hd], rfl, by simp⟩
    · simp [find_sync_index, hd] at h
      obtain ⟨j, hj, rfl⟩ := h
      obtain ⟨pre, post, h1, h2, h3⟩ := ih j hj
      refine ⟨d :: pre, post, by simp [h1], by simp [h2], ?_⟩
      intro x hx
      rcases List.mem_cons.1 hx with rfl | hx
      · exact hd
      · exact h3 x hx

theorem find_sync_index_lt (b : Byte) (data : List Byte) (i : Nat)
    (h : find_sync_index b data = some i) : i < data.length := by
  obtain ⟨pre, post, h1, h2, _⟩ := find_sync_index_some b data i h
  subst h1
  simp
  omega

theorem sync_found_iff (data pattern : List Byte) :
    sync_found data pattern = true ↔ pattern <+: data := by
  induction pattern generalizing data with
  | nil => simp [sync_found]
  | cons p ps ih =>
    cases data with
    | nil => simp [sync_found]
    | cons d ds =>
      by_cases h : d = p
      · subst h
        simp [sync_found, ih, List.cons_prefix_cons]
      · have h2 : ¬ p = d := fun e => h e.symm
        simp [sync_found, h, h2, List.cons_prefix_cons]

theorem sync_loop_total (pattern : List Byte) (fuel : Nat) (data : List Byte)
    (h : data.length < fuel) : ∃ r, sync_loop pattern fuel data = some r := by
  induction fuel generalizing data with
  | zero => omega
  | succ fuel ih =>
    unfold sync_loop
    split
    · exact ⟨_, rfl⟩
    · split
      · rename_i i hi
        have hlt := find_sync_index_lt _ _ _ hi
        split
        · exact ⟨_, rfl⟩
        · split
          · split <;> exact ⟨_, rfl⟩
          · obtain ⟨r, hr⟩ := ih (data.drop (i + 1)) (by simp; omega)
            obtain ⟨c, rest, ev, f⟩ := r
            rw [hr]
            exact ⟨_, rfl⟩
      · exact ⟨_, rfl⟩

/-! ## The sync loop -/

theorem sync_loop_insufficient (pattern : List Byte) (fuel : Nat) (data : List Byte)
    (h : data.length < pattern.length) :
    sync_loop pattern (fuel + 1) data = some (some Sym.STOP, data, [], false) := by
  simp [sync_loop, h]

theorem sync_loop_no_start (pattern : List Byte) (fuel : Nat) (data : List Byte)
    (hlen : pattern.length ≤ data.length) (hno : ∀ x ∈ data, x ≠ pattern.headD 0) :
    sync_loop pattern (fuel + 1) data
      = some (some Sym.STOP, [], [(data.length, false)], false) := by
  have h1 : ¬ data.length < pattern.length := by omega
  have h2 := (find_sync_index_none (pattern.headD 0) data).2 hno
  unfold sync_loop
  rw [if_neg h1, h2]

/-- Every result of the sync loop is either a match (`nil`, the state becomes
`FOUND`, the buffer left starts with the pattern) or `:STOP` with the state
untouched. -/
theorem sync_loop_outcome (pattern : List Byte) (fuel : Nat) (data : List Byte)
    (control : Option Sym) (rest : List Byte) (events : List Discard) (found : Bool)
    (h : sync_loop pattern fuel data = some (control, rest, events, found)) :
    (control = none ∧ found = true ∧ pattern <+: rest) ∨
      (control = some Sym.STOP ∧ found = false) := by
  induction fuel generalizing data events with
  | zero => simp [sync_loop] at h
  | succ fuel ih =>
    unfold sync_loop at h
    split at h
    · simp at h
      simp [← h.1, ← h.2.2.2]
    · split at h
      · rename_i i hi
        split at h
        · simp at h
          simp [← h.1, ← h.2.2.2]
        · split at h
          · rename_i hf
            have hp := (sync_found_iff _ _).1 hf
            split at h
            · simp at h
              obtain ⟨h1, h2, _, h4⟩ := h
              subst h1 h2 h4
              exact Or.inl ⟨rfl, rfl, hp⟩
            · rename_i h0
              simp at h0
              subst h0
              simp at h
              obtain ⟨h1, h2, _, h4⟩ := h
              subst h1 h2 h4
              exact Or.inl ⟨rfl, rfl, by simpa using hp⟩
          · split at h
            · rename_i c r ev f hrec
              simp at h
              obtain ⟨h1, h2, _, h4⟩ := h
              subst h1 h2 h4
              exact ih _ _ hrec
            · simp at h
      · simp at h
        simp [← h.1, ← h.2.2.2]

/-- The sync loop finds the first occurrence of the pattern: everything before
it is discarded, in events whose counts add up to its index. -/
theorem sync_loop_first_occurrence (pattern : List Byte) (hp : pattern ≠ [])
    (fuel : Nat) (data : List Byte) (k : Nat) (hfuel : data.length < fuel)
    (hocc : pattern <+: data.drop k) (hfirst : ∀ j, j < k → ¬ pattern <+: data.drop j) :
    ∃ events, sync_loop pattern fuel data = some (none, data.drop k, events, true)
      ∧ (events.map Prod.fst).sum = k := by
  induction fuel generalizing data k with
  | zero => omega
  | succ fuel ih =>
    obtain ⟨p0, ps, rfl⟩ := List.exists_cons_of_ne_nil hp
    obtain ⟨t, ht⟩ := hocc
    have hlen : k + (p0 :: ps).length ≤ data.length := by
      have := congrArg List.length ht
      simp at this
      simp
      omega
    have hk : k < data.length := by simp at hlen; omega
    have hsplit : data = data.take k ++ p0 :: (ps ++ t) := by
      conv_lhs => rw [← List.take_append_drop k data, ← ht]
      simp
    have hmem : ¬ ∀ x ∈ data, x ≠ p0 := by
      intro hall
      apply hall p0 _ rfl
      rw [hsplit]
      simp
    cases hfi : find_sync_index p0 data with
    | none => exact absurd ((find_sync_index_none p0 data).1 hfi) hmem
    | some i =>
      obtain ⟨pre, post, h1, h2, h3⟩ := find_sync_index_some p0 data i hfi
      have hik : i ≤ k := by
        by_contra hgt
        have hgt : k < i := by omega
        have hk1 : data[k]? = some p0 := by
          rw [← List.head?_drop, ← ht]
          rfl
        have hk2 : data[k]? = some (pre[k]) := by
          rw [h1, List.getElem?_append_left (by omega), List.getElem?_eq_getElem]
        rw [hk1] at hk2
        exact h3 _ (List.getElem_mem _) (Option.some.inj hk2).symm
      have hn1 : ¬ data.length < (p0 :: ps).length := by omega
      have hn2 : ¬ data.length < i + (p0 :: ps).length := by omega
      by_cases hik2 : i = k
      · subst hik2
        have hf : sync_found (data.drop i) (p0 :: ps) = true :=
          (sync_found_iff _ _).2 ⟨t, ht⟩
        by_cases h0 : i = 0
        · subst h0
          refine ⟨[], ?_, by simp⟩
          unfold sync_loop
          simp only [List.headD_cons, hfi, hn1, hn2, if_false]
          simp at hf
          simp [hf]
        · refine ⟨[(i, true)], ?_, by simp⟩
          unfold sync_loop
          simp only [List.headD_cons, hfi, hn1, hn2, if_false]
          simp [hf, h0]
      · have hlt : i < k := by omega
        have hnf : ¬ sync_found (data.drop i) (p0 :: ps) = true := by
          rw [sync_found_iff]
          exact hfirst i hlt
        obtain ⟨events, he1, he2⟩ := ih (data.drop (i + 1)) (k - (i + 1))
          (by simp; omega)
          (by rw [List.drop_drop]
              have : i + 1 + (k - (i + 1)) = k := by omega
              rw [this]
              exact ⟨t, ht⟩)
          (by intro j hj
              rw [List.drop_drop]
              exact hfirst _ (by omega))
        rw [List.drop_drop] at he1
        have hki : i + 1 + (k - (i + 1)) = k := by omega
        rw [hki] at he1
        refine ⟨(i + 1, false) :: events, ?_, by simp [he2]; omega⟩
        unfold sync_loop
        simp only [List.headD_cons, hfi, hn1, hn2, if_false]
        simp [hnf, he1]

/-! ## `handle_sync_pattern` and one `read_data` call of the burst protocol -/

theorem handle_sync_pattern_total {E : Type} (cfg : Config) (st : State E) :
    ∃ sync, handle_sync_pattern cfg st = some sync := by
  unfold handle_sync_pattern
  split
  · rename_i pattern _
    split
    · obtain ⟨⟨c, rest, ev, f⟩, hr⟩ :=
        sync_loop_total pattern (st.data.length + 1) st.data (by omega)
      rw [hr]
      exact ⟨_, rfl⟩
    · exact ⟨_, rfl⟩
  · exact ⟨_, rfl⟩

theorem handle_sync_pattern_extra {E : Type} (cfg : Config) (st : State E)
    (sync : SyncResult E) (h : handle_sync_pattern cfg st = some sync) :
    sync.state.extra = st.extra := by
  unfold handle_sync_pattern at h
  split at h
  · split at h
    · split at h
      · simp at h
        subst h
        rfl
      · simp at h
    · simp at h
      subst h
      rfl
  · simp at h
    subst h
    rfl

theorem handle_sync_pattern_searching {E : Type} (pattern : List Byte) (n : Int)
    (data : List Byte) (stored : Option E) (control : Option Sym) (rest : List Byte)
    (events : List Discard) (found : Bool)
    (h : sync_loop pattern (data.length + 1) data = some (control, rest, events, found)) :
    handle_sync_pattern ⟨some pattern, n⟩ ⟨data, stored, SyncState.SEARCHING⟩
      = some ⟨control,
          ⟨rest, stored, if found then SyncState.FOUND else SyncState.SEARCHING⟩, events⟩ := by
  simp [handle_sync_pattern, h]

theorem extract_turn_packet {E : Type} (cfg : Config)
    (chain : List Byte → Option E → Outcome E) (data : List Byte) (st : State E)
    (log : List Discard) (h : st.data ≠ []) :
    extract_turn cfg reduce_to_single_packet chain data st log
      = Turn.done ⟨discard_leading cfg (PacketData.str st.data) st.extra,
          ⟨[], st.extra, SyncState.SEARCHING⟩, log, []⟩ := by
  have h1 : ¬ st.data.length ≤ 0 := by
    have := List.length_pos.2 h
    omega
  simp [extract_turn, reduce_to_single_packet, unpack_result, h]

theorem extract_turn_probe {E : Type} (cfg : Config)
    (chain : List Byte → Option E → Outcome E) (st : State E)
    (log : List Discard) (h : st.data = []) :
    extract_turn cfg reduce_to_single_packet chain [] st log
      = Turn.done ⟨chain [] none, st, log, [([], none)]⟩ := by
  simp [extract_turn, reduce_to_single_packet, unpack_result, h]

theorem extract_turn_no_data {E : Type} (cfg : Config)
    (chain : List Byte → Option E → Outcome E) (data : List Byte) (st : State E)
    (log : List Discard) (h : st.data = []) (hd : data ≠ []) :
    extract_turn cfg reduce_to_single_packet chain data st log
      = Turn.done ⟨Outcome.pair (PacketData.sym Sym.STOP) none, st, log, []⟩ := by
  simp [extract_turn, reduce_to_single_packet, unpack_result, h, hd]

theorem read_data_stop {E : Type} (cfg : Config) (chain : List Byte → Option E → Outcome E)
    (fuel : Nat) (st : State E) (data : List Byte) (extra : Option E)
    (sync : SyncResult E) (s : Sym)
    (hsync : handle_sync_pattern cfg (append_input st data extra) = some sync)
    (hc : sync.control = some s) (hd : data ≠ []) :
    read_data cfg chain (fuel + 1) st data extra
      = some ⟨Outcome.symbol s, sync.state, sync.discards, []⟩ := by
  have h1 : 0 < data.length := List.length_pos.2 hd
  simp [read_data, read_data_with, read_loop, read_turn, hsync, hc, h1]

theorem read_data_packet {E : Type} (cfg : Config) (chain : List Byte → Option E → Outcome E)
    (fuel : Nat) (st : State E) (data : List Byte) (extra : Option E)
    (sync : SyncResult E)
    (hsync : handle_sync_pattern cfg (append_input st data extra) = some sync)
    (hgo : sync.control = none ∨ data = []) (hne : sync.state.data ≠ []) :
    read_data cfg chain (fuel + 1) st data extra
      = some ⟨discard_leading cfg (PacketData.str sync.state.data) sync.state.extra,
          ⟨[], sync.state.extra, SyncState.SEARCHING⟩, sync.discards, []⟩ := by
  rcases hgo with hgo | hgo
  · simp [read_data, read_data_with, read_loop, read_turn, hsync, hgo,
      extract_turn_packet _ _ _ _ _ hne]
  · subst hgo
    cases hc : sync.control <;>
      simp [read_data, read_data_with, read_loop, read_turn, hsync, hc,
        extract_turn_packet _ _ _ _ _ hne]

theorem read_data_probe_empty {E : Type} (cfg : Config)
    (chain : List Byte → Option E → Outcome E)
    (fuel : Nat) (st : State E) (extra : Option E) (sync : SyncResult E)
    (hsync : handle_sync_pattern cfg (append_input st [] extra) = some sync)
    (he : sync.state.data = []) :
    read_data cfg chain (fuel + 1) st [] extra
      = some ⟨chain [] none, sync.state, sync.discards, [([], none)]⟩ := by
  cases hc : sync.control <;>
    simp [read_data, read_data_with, read_loop, read_turn, hsync, hc,
      extract_turn_probe _ _ _ _ he]

theorem read_data_no_data {E : Type} (cfg : Config)
    (chain : List Byte → Option E → Outcome E)
    (fuel : Nat) (st : State E) (data : List Byte) (extra : Option E) (sync : SyncResult E)
    (hsync : handle_sync_pattern cfg (append_input st data extra) = some sync)
    (hc : sync.control = none) (he : sync.state.data = []) (hd : data ≠ []) :
    read_data cfg chain (fuel + 1) st data extra
      = some ⟨Outcome.pair (PacketData.sym Sym.STOP) none, sync.state, sync.discards, []⟩ := by
  simp [read_data, read_data_with, read_loop, read_turn, hsync, hc,
    extract_turn_no_data _ _ _ _ _ he hd]

/-- Every `read_data` call of the burst protocol returns, and `@extra` afterwards
is what lines 85-88 stored. -/
theorem read_data_total {E : Type} (cfg : Config) (chain : List Byte → Option E → Outcome E)
    (fuel : Nat) (st : State E) (data : List Byte) (extra : Option E) :
    ∃ r, read_data cfg chain (fuel + 1) st data extra = some r
      ∧ r.state.extra = (append_input st data extra).extra := by
  obtain ⟨sync, hsync⟩ := handle_sync_pattern_total cfg (append_input st data extra)
  have hx := handle_sync_pattern_extra _ _ _ hsync
  by_cases hne : sync.state.data = []
  · by_cases hd : data = []
    · subst hd
      exact ⟨_, read_data_probe_empty cfg chain fuel st extra sync hsync hne, hx⟩
    · cases hc : sync.control with
      | none => exact ⟨_, read_data_no_data cfg chain fuel st data extra sync hsync hc hne hd, hx⟩
      | some s => exact ⟨_, read_data_stop cfg chain fuel st data extra sync s hsync hc hd, hx⟩
  · by_cases hd : data = []
    · exact ⟨_, read_data_packet cfg chain fuel st data extra sync hsync (Or.inr hd) hne, hx⟩
    · cases hc : sync.control with
      | none =>
        exact ⟨_, read_data_packet cfg chain fuel st data extra sync hsync (Or.inl hc) hne, hx⟩
      | some s => exact ⟨_, read_data_stop cfg chain fuel st data extra sync s hsync hc hd, hx⟩

/-! ## Cutting off the leading bytes -/

theorem rb_str_substr_suffix (s : List Byte) (n : Nat) (h : n ≤ s.length) :
    rb_str_substr s n ((s.length : Int) - n) = some (s.drop n) := by
  have h1 : ¬ ((s.length : Int) - n < 0) := by omega
  have h2 : ¬ ((n : Int) > s.length) := by omega
  have h3 : ¬ ((n : Int) < 0) := by omega
  simp only [rb_str_substr, h1, h2, h3, if_false, gt_iff_lt, lt_self_iff_false]
  have h4 : ((s.length : Int) - n).toNat = s.length - n := by omega
  simp [h4]

theorem rb_str_substr_negative (s : List Byte) (beg len : Int) (h : len < 0) :
    rb_str_substr s beg len = none := by
  simp [rb_str_substr, h]

theorem discard_leading_within {E : Type} (cfg : Config) (p : List Byte) (x : Option E)
    (n : Nat) (hn : cfg.discard_leading_bytes = n) (hle : n ≤ p.length) :
    discard_leading cfg (PacketData.str p) x = Outcome.pair (PacketData.str (p.drop n)) x := by
  unfold discard_leading
  rw [hn]
  by_cases h0 : n = 0
  · subst h0
    simp
  · have hpos : (n : Int) > 0 := by omega
    simp only [hpos, if_true, rb_str_substr_suffix p n hle]

theorem discard_leading_beyond {E : Type} (cfg : Config) (p : List Byte) (x : Option E)
    (h : (p.length : Int) < cfg.discard_leading_bytes) :
    discard_leading cfg (PacketData.str p) x = Outcome.raised RubyError.TypeError := by
  unfold discard_leading
  have hpos : cfg.discard_leading_bytes > 0 := by omega
  have hneg : (p.length : Int) - cfg.discard_leading_bytes < 0 := by omega
  simp only [hpos, if_true, rb_str_substr_negative _ _ _ hneg]

theorem read_data_with_packet {E : Type} (cfg : Config)
    (reduce : State E → Reduced E × State E) (chain : List Byte → Option E → Outcome E)
    (fuel : Nat) (st : State E) (data : List Byte) (extra : Option E)
    (sync : SyncResult E) (p : List Byte) (x : Option E) (st2 : State E)
    (hsync : handle_sync_pattern cfg (append_input st data extra) = some sync)
    (hgo : sync.control = none ∨ data = [])
    (hred : reduce sync.state = (Reduced.array2 (PacketData.str p) x, st2)) :
    read_data_with cfg reduce chain (fuel + 1) st data extra
      = some ⟨discard_leading cfg (PacketData.str p) x,
          ⟨st2.data, st2.extra, SyncState.SEARCHING⟩, sync.discards, []⟩ := by
  rcases hgo with hgo | hgo
  · simp [read_data_with, read_loop, read_turn, hsync, hgo, extract_turn, hred, unpack_result]
  · subst hgo
    cases hc : sync.control <;>
      simp [read_data_with, read_loop, read_turn, hsync, hc, extract_turn, hred, unpack_result]

theorem append_input_chunk {E : Type} (st : State E) (data : List Byte) (extra : Option E)
    (hd : data ≠ []) :
    append_input st data extra = ⟨st.data ++ data, extra, st.sync_state⟩ := by
  have : data.length ≠ 0 := fun h => hd (List.length_eq_zero.1 h)
  simp [append_input, this]

theorem append_input_probe {E : Type} (st : State E) :
    append_input st [] none = st := by
  simp [append_input]

theorem append_input_sync_state {E : Type} (st : State E) (data : List Byte)
    (extra : Option E) : (append_input st data extra).sync_state = st.sync_state := rfl

theorem append_input_data {E : Type} (st : State E) (data : List Byte)
    (extra : Option E) : (append_input st data extra).data = st.data ++ data := rfl

/-- One read of the burst protocol with a non-empty sync pattern and no leading
discard, from `SEARCHING`: it ends in `SEARCHING`, and data returned for a
non-empty chunk starts with the pattern. -/
theorem read_data_synced_step {E : Type} (pattern : List Byte)
    (chain : List Byte → Option E → Outcome E) (fuel : Nat) (st : State E)
    (data : List Byte) (extra : Option E) (hp : pattern ≠ [])
    (hs : st.sync_state = SyncState.SEARCHING) :
    ∃ r, read_data ⟨some pattern, 0⟩ chain (fuel + 1) st data extra = some r
      ∧ r.state.sync_state = SyncState.SEARCHING
      ∧ (data ≠ [] → ∀ p x, r.ret = Outcome.pair (PacketData.str p) x → pattern <+: p) := by
  obtain ⟨⟨c, rest, ev, f⟩, hloop⟩ := sync_loop_total pattern
    ((append_input st data extra).data.length + 1) (append_input st data extra).data (by omega)
  have hsync : handle_sync_pattern ⟨some pattern, 0⟩ (append_input st data extra)
      = some ⟨c, ⟨rest, (append_input st data extra).extra,
          if f then SyncState.FOUND else SyncState.SEARCHING⟩, ev⟩ := by
    have := handle_sync_pattern_searching pattern 0 (append_input st data extra).data
      (append_input st data extra).extra c rest ev f hloop
    rw [← this]
    congr 1
    cases st
    simp only [append_input] at *
    simp [hs]
  rcases sync_loop_outcome _ _ _ _ _ _ _ hloop with ⟨h1, h2, h3⟩ | ⟨h1, h2⟩
  · subst h1 h2
    have hne : rest ≠ [] := by
      intro h
      rw [h] at h3
      exact hp (List.prefix_nil.1 h3)
    refine ⟨_, read_data_packet _ chain fuel st data extra _ hsync (Or.inl rfl) hne, rfl, ?_⟩
    intro _ p x hret
    rw [discard_leading_within ⟨some pattern, 0⟩ _ _ 0 rfl (Nat.zero_le _)] at hret
    simp at hret
    rw [← hret.1]
    exact h3
  · subst h1 h2
    by_cases hd : data = []
    · by_cases hr : rest = []
      · subst hd
        refine ⟨_, read_data_probe_empty _ chain fuel st extra _ hsync hr, rfl, ?_⟩
        intro h
        exact absurd rfl h
      · refine ⟨_, read_data_packet _ chain fuel st data extra _ hsync (Or.inr hd) hr, rfl, ?_⟩
        intro h
        exact absurd hd h
    · refine ⟨_, read_data_stop _ chain fuel st data extra _ Sym.STOP hsync rfl hd, rfl, ?_⟩
      intro _ p x hret
      simp at hret

theorem sync_loop_nil (pattern : List Byte) (fuel : Nat) :
    ∃ events, sync_loop pattern (fuel + 1) [] = some (some Sym.STOP, [], events, false) := by
  unfold sync_loop
  split
  · exact ⟨_, rfl⟩
  · simp [find_sync_index]

/-- On an empty buffer `handle_sync_pattern` changes no instance variable. -/
theorem handle_sync_pattern_empty {E : Type} (cfg : Config) (st : State E)
    (sync : SyncResult E) (he : st.data = [])
    (h : handle_sync_pattern cfg st = some sync) : sync.state = st := by
  obtain ⟨data, stored, ss⟩ := st
  simp only at he
  subst he
  unfold handle_sync_pattern at h
  split at h
  · rename_i pattern _
    split at h
    · obtain ⟨events, hev⟩ := sync_loop_nil pattern 0
      simp only [List.length_nil, Nat.zero_add] at h
      rw [hev] at h
      simp at h
      subst h
      simp
    · simp at h
      subst h
      rfl
  · simp at h
    subst h
    rfl

theorem discard_leading_cases {E : Type} (cfg : Config) (p : List Byte) (x : Option E) :
    (∃ q, discard_leading cfg (PacketData.str p) x = Outcome.pair (PacketData.str q) x)
      ∨ discard_leading cfg (PacketData.str p) x = Outcome.raised RubyError.TypeError := by
  by_cases h : cfg.discard_leading_bytes > 0
  · cases hs : rb_str_substr p cfg.discard_leading_bytes
        ((p.length : Int) - cfg.discard_leading_bytes) with
    | none => exact Or.inr (by simp only [discard_leading, h, if_true, hs])
    | some q => exact Or.inl ⟨q, by simp only [discard_leading, h, if_true, hs]⟩
  · exact Or.inl ⟨p, by simp only [discard_leading, h, if_false]⟩

/-! ## The claims -/

/-- C1 (sync and discard): with a non-empty sync pattern, no leading discard
and the state `SEARCHING`, a read with a non-empty chunk after which the
pattern first occurs at index `k` of the buffer returns the buffer from `k` on
as data (it starts with the pattern), the counts of the discard events of the
call add up to `k`, and the buffer is empty afterwards. -/
theorem sync_discard_emits_from_first_occurrence {E : Type} (pattern : List Byte)
    (chain : List Byte → Option E → Outcome E) (fuel : Nat) (buffer : List Byte)
    (stored : Option E) (chunk : List Byte) (extra : Option E) (k : Nat)
    (hp : pattern ≠ []) (hc : chunk ≠ [])
    (hocc : pattern <+: (buffer ++ chunk).drop k)
    (hfirst : ∀ j, j < k → ¬ pattern <+: (buffer ++ chunk).drop j) :
    ∃ r, read_data ⟨some pattern, 0⟩ chain (fuel + 1)
          ⟨buffer, stored, SyncState.SEARCHING⟩ chunk extra = some r
      ∧ r.ret = Outcome.pair (PacketData.str ((buffer ++ chunk).drop k)) extra
      ∧ pattern <+: (buffer ++ chunk).drop k
      ∧ (r.discards.map Prod.fst).sum = k
      ∧ r.state.data = [] := by
  obtain ⟨events, hloop, hsum⟩ := sync_loop_first_occurrence pattern hp
    ((buffer ++ chunk).length + 1) (buffer ++ chunk) k (by omega) hocc hfirst
  have hx : (if ¬ (chunk.length = 0 ∧ extra.isNone = true) then extra else stored) = extra := by
    have : chunk.length ≠ 0 := fun h => hc (List.length_eq_zero.1 h)
    simp [this]
  have hsync : handle_sync_pattern ⟨some pattern, 0⟩
      (append_input ⟨buffer, stored, SyncState.SEARCHING⟩ chunk extra)
      = some ⟨none, ⟨(buffer ++ chunk).drop k, extra, SyncState.FOUND⟩, events⟩ := by
    unfold append_input
    rw [hx]
    exact handle_sync_pattern_searching pattern 0 (buffer ++ chunk) extra _ _ _ _ hloop
  have hne : (buffer ++ chunk).drop k ≠ [] := by
    intro h
    rw [h] at hocc
    exact hp (List.prefix_nil.1 hocc)
  refine ⟨_, read_data_packet _ chain fuel _ chunk extra _ hsync (Or.inl rfl) hne, ?_, hocc,
    hsum, rfl⟩
  exact discard_leading_within ⟨some pattern, 0⟩ _ _ 0 rfl (Nat.zero_le _)

/-- C1, witness: pattern "AB", empty buffer, chunk "XXABCDEF": one discard event
(count 2, matched) and the payload "ABCDEF". -/
theorem sync_discard_emits_from_first_occurrence_witness :
    read_data (E := Nat) ⟨some [65, 66], 0⟩ terminal_stage 1 initial_state
        [88, 88, 65, 66, 67, 68, 69, 70] (some 5)
      = some ⟨Outcome.pair (PacketData.str [65, 66, 67, 68, 69, 70]) (some 5),
          ⟨[], some 5, SyncState.SEARCHING⟩, [(2, true)], []⟩
    ∧ ∃ r, read_data (E := Nat) ⟨some [65, 66], 0⟩ terminal_stage (0 + 1)
          ⟨[], none, SyncState.SEARCHING⟩ [88, 88, 65, 66, 67, 68, 69, 70] (some 5) = some r
      ∧ r.ret = Outcome.pair
          (PacketData.str (([] ++ [88, 88, 65, 66, 67, 68, 69, 70]).drop 2)) (some 5)
      ∧ [65, 66] <+: ([] ++ [88, 88, 65, 66, 67, 68, 69, 70]).drop 2
      ∧ (r.discards.map Prod.fst).sum = 2
      ∧ r.state.data = [] :=
  ⟨by decide,
   sync_discard_emits_from_first_occurrence [65, 66] terminal_stage 0 [] none
     [88, 88, 65, 66, 67, 68, 69, 70] (some 5) 2 (by decide) (by decide) (by decide)
     (by decide)⟩

/-- C2, counterexample: with the pattern "AB", the read of "A" returns `:STOP`
and the probe that follows returns the data "A", which does not start with
the pattern. -/
theorem probe_emits_unsynchronized_frame :
    read_all (E := Nat) ⟨some [65, 66], 0⟩ terminal_stage 1 initial_state
        [([65], none), ([], none)]
      = some [⟨Outcome.symbol Sym.STOP, ⟨[65], none, SyncState.SEARCHING⟩, [], []⟩,
          ⟨Outcome.pair (PacketData.str [65]) none, ⟨[], none, SyncState.SEARCHING⟩, [], []⟩]
    ∧ ¬ ([65, 66] <+: [65]) := by
  decide

/-- C2 (amended): with a non-empty sync pattern and no leading discard, from the
initial state, every sequence of reads returns, and every data outcome of a
read whose chunk is not empty starts with the pattern. -/
theorem nonprobe_frames_start_with_pattern {E : Type} (pattern : List Byte)
    (chain : List Byte → Option E → Outcome E) (fuel : Nat)
    (calls : List (List Byte × Option E)) (hp : pattern ≠ []) :
    ∃ rs, read_all ⟨some pattern, 0⟩ chain (fuel + 1) initial_state calls = some rs
      ∧ rs.length = calls.length
      ∧ ∀ call r, (call, r) ∈ calls.zip rs → call.1 ≠ [] →
          ∀ p x, r.ret = Outcome.pair (PacketData.str p) x → pattern <+: p := by
  suffices h : ∀ (st : State E), st.sync_state = SyncState.SEARCHING →
      ∃ rs, read_all ⟨some pattern, 0⟩ chain (fuel + 1) st calls = some rs
        ∧ rs.length = calls.length
        ∧ ∀ call r, (call, r) ∈ calls.zip rs → call.1 ≠ [] →
            ∀ p x, r.ret = Outcome.pair (PacketData.str p) x → pattern <+: p from
    h initial_state rfl
  induction calls with
  | nil =>
    intro st _
    exact ⟨[], rfl, rfl, by simp⟩
  | cons call calls ih =>
    intro st hs
    obtain ⟨data, extra⟩ := call
    obtain ⟨r, hr, hs2, hdata⟩ := read_data_synced_step pattern chain fuel st data extra hp hs
    obtain ⟨rs, hrs, hlen, hall⟩ := ih r.state hs2
    refine ⟨r :: rs, ?_, by simp [hlen], ?_⟩
    · simp [read_all, hr, hrs]
    · intro call2 r2 hmem hne p x hret
      simp only [List.zip_cons_cons, List.mem_cons] at hmem
      rcases hmem with hmem | hmem
      · simp only [Prod.mk.injEq] at hmem
        obtain ⟨h1, h2⟩ := hmem
        subst h1 h2
        exact hdata hne p x hret
      · exact hall call2 r2 hmem hne p x hret

/-- C2 (amended), witness: pattern "AB" and the calls "XA", probe, "BAB". -/
theorem nonprobe_frames_start_with_pattern_witness :
    ∃ rs, read_all (E := Nat) ⟨some [65, 66], 0⟩ terminal_stage (0 + 1) initial_state
        [([88, 65], none), ([], none), ([66, 65, 66], some 1)] = some rs
      ∧ rs.length = [([88, 65], (none : Option Nat)), ([], none), ([66, 65, 66], some 1)].length
      ∧ ∀ call r, (call, r) ∈
            [([88, 65], (none : Option Nat)), ([], none), ([66, 65, 66], some 1)].zip rs →
          call.1 ≠ [] →
          ∀ p x, r.ret = Outcome.pair (PacketData.str p) x → [65, 66] <+: p :=
  nonprobe_frames_start_with_pattern [65, 66] terminal_stage 0
    [([88, 65], none), ([], none), ([66, 65, 66], some 1)] (by decide)

/-- C3 (leading discard): when a read gets the raw payload `p` from the
extractor and `discard_leading_bytes` is `n` with `0 ≤ n ≤ length p`, the data
returned is `p` without its first `n` bytes, so `p` itself for `n = 0`. -/
theorem leading_discard_drops_first_bytes {E : Type} (cfg : Config)
    (reduce : State E → Reduced E × State E) (chain : List Byte → Option E → Outcome E)
    (fuel : Nat) (st : State E) (chunk : List Byte) (extra : Option E)
    (sync : SyncResult E) (p : List Byte) (x : Option E) (st2 : State E) (n : Nat)
    (hsync : handle_sync_pattern cfg (append_input st chunk extra) = some sync)
    (hgo : sync.control = none ∨ chunk = [])
    (hred : reduce sync.state = (Reduced.array2 (PacketData.str p) x, st2))
    (hn : cfg.discard_leading_bytes = n) (hle : n ≤ p.length) :
    ∃ r, read_data_with cfg reduce chain (fuel + 1) st chunk extra = some r
      ∧ r.ret = Outcome.pair (PacketData.str (p.drop n)) x
      ∧ (p.drop n).length = p.length - n
      ∧ (n = 0 → r.ret = Outcome.pair (PacketData.str p) x) := by
  refine ⟨_, read_data_with_packet cfg reduce chain fuel st chunk extra sync p x st2
    hsync hgo hred, discard_leading_within cfg p x n hn hle, by simp, ?_⟩
  intro h0
  subst h0
  exact discard_leading_within cfg p x 0 hn hle

/-- C3, witness: three leading bytes cut off the raw payload "ABCDEF" leave
"DEF". -/
theorem leading_discard_drops_first_bytes_witness :
    read_data (E := Nat) ⟨none, 3⟩ terminal_stage 1 initial_state
        [65, 66, 67, 68, 69, 70] none
      = some ⟨Outcome.pair (PacketData.str [68, 69, 70]) none,
          ⟨[], none, SyncState.SEARCHING⟩, [], []⟩
    ∧ ∃ r, read_data_with (E := Nat) ⟨none, 3⟩ reduce_to_single_packet terminal_stage (0 + 1)
          initial_state [65, 66, 67, 68, 69, 70] none = some r
      ∧ r.ret = Outcome.pair (PacketData.str ([65, 66, 67, 68, 69, 70].drop 3)) none
      ∧ ([65, 66, 67, 68, 69, 70].drop 3).length = [65, 66, 67, 68, 69, 70].length - 3
      ∧ (3 = 0 → r.ret = Outcome.pair (PacketData.str [65, 66, 67, 68, 69, 70]) none) :=
  ⟨by decide,
   leading_discard_drops_first_bytes ⟨none, 3⟩ reduce_to_single_packet terminal_stage 0
     initial_state [65, 66, 67, 68, 69, 70] none
     ⟨none, ⟨[65, 66, 67, 68, 69, 70], none, SyncState.SEARCHING⟩, []⟩
     [65, 66, 67, 68, 69, 70] none ⟨[], none, SyncState.SEARCHING⟩ 3
     (by decide) (by decide) (by decide) (by decide) (by decide)⟩

/-- C4, counterexample: with `discard_leading_bytes = 7` the read that extracts
the six bytes "ABCDEF" raises `TypeError`; it does not return the empty
payload. -/
theorem oversized_leading_discard_raises :
    read_data (E := Nat) ⟨none, 7⟩ terminal_stage 1 initial_state
        [65, 66, 67, 68, 69, 70] none
      = some ⟨Outcome.raised RubyError.TypeError, ⟨[], none, SyncState.SEARCHING⟩, [], []⟩
    ∧ rb_str_substr [65, 66, 67, 68, 69, 70] 7 (6 - 7) = none
    ∧ (read_data (E := Nat) ⟨none, 7⟩ terminal_stage 1 initial_state
        [65, 66, 67, 68, 69, 70] none).map (fun r => r.ret)
      ≠ some (Outcome.pair (PacketData.str []) none) := by
  decide

/-- C4 (amended): when a read gets the raw payload `p` from the extractor and
`discard_leading_bytes` is larger than `length p` and fits the C `int` that
`FIX2INT` converts it to (at most 2147483647; beyond that line 162 raises
`RangeError` before the cut, which is outside the embedding), `rb_str_substr`
is called with a negative length and yields `nil` without reading any byte of
`p`, and the read raises `TypeError` instead of returning data. -/
theorem leading_discard_beyond_frame_raises {E : Type} (cfg : Config)
    (reduce : State E → Reduced E × State E) (chain : List Byte → Option E → Outcome E)
    (fuel : Nat) (st : State E) (chunk : List Byte) (extra : Option E)
    (sync : SyncResult E) (p : List Byte) (x : Option E) (st2 : State E)
    (hsync : handle_sync_pattern cfg (append_input st chunk extra) = some sync)
    (hgo : sync.control = none ∨ chunk = [])
    (hred : reduce sync.state = (Reduced.array2 (PacketData.str p) x, st2))
    (hn : (p.length : Int) < cfg.discard_leading_bytes)
    (_hfit : fits_c_int cfg.discard_leading_bytes = true) :
    rb_str_substr p cfg.discard_leading_bytes
        ((p.length : Int) - cfg.discard_leading_bytes) = none
    ∧ read_data_with cfg reduce chain (fuel + 1) st chunk extra
      = some ⟨Outcome.raised RubyError.TypeError,
          ⟨st2.data, st2.extra, SyncState.SEARCHING⟩, sync.discards, []⟩ := by
  refine ⟨rb_str_substr_negative _ _ _ (by omega), ?_⟩
  rw [read_data_with_packet cfg reduce chain fuel st chunk extra sync p x st2 hsync hgo hred,
    discard_leading_beyond cfg p x hn]

/-- C4 (amended), witness: `discard_leading_bytes = 7`, which fits a C `int`,
and the raw payload "ABCDEF". -/
theorem leading_discard_beyond_frame_raises_witness :
    fits_c_int 7 = true
    ∧ rb_str_substr [65, 66, 67, 68, 69, 70] (7 : Int)
        ((([65, 66, 67, 68, 69, 70] : List Byte).length : Int) - 7) = none
    ∧ read_data_with (E := Nat) ⟨none, 7⟩ reduce_to_single_packet terminal_stage (0 + 1)
        initial_state [65, 66, 67, 68, 69, 70] none
      = some ⟨Outcome.raised RubyError.TypeError,
          ⟨[], none, SyncState.SEARCHING⟩, [], []⟩ :=
  ⟨by decide,
   leading_discard_beyond_frame_raises ⟨none, 7⟩ reduce_to_single_packet terminal_stage 0
     initial_state [65, 66, 67, 68, 69, 70] none
     ⟨none, ⟨[65, 66, 67, 68, 69, 70], none, SyncState.SEARCHING⟩, []⟩
     [65, 66, 67, 68, 69, 70] none ⟨[], none, SyncState.SEARCHING⟩
     (by decide) (by decide) (by decide) (by decide) (by decide)⟩

/-- C5 (insufficient data): with a sync pattern longer than the buffer after a
non-empty chunk was appended, from `SEARCHING`, the read returns `:STOP`,
reports no discard, and leaves the buffer with the chunk appended and the state
`SEARCHING`. -/
theorem insufficient_data_stops {E : Type} (pattern : List Byte) (n : Int)
    (chain : List Byte → Option E → Outcome E) (fuel : Nat) (buffer : List Byte)
    (stored : Option E) (chunk : List Byte) (extra : Option E)
    (hc : chunk ≠ []) (hlen : (buffer ++ chunk).length < pattern.length) :
    read_data ⟨some pattern, n⟩ chain (fuel + 1) ⟨buffer, stored, SyncState.SEARCHING⟩
        chunk extra
      = some ⟨Outcome.symbol Sym.STOP, ⟨buffer ++ chunk, extra, SyncState.SEARCHING⟩,
          [], []⟩ := by
  have hsync : handle_sync_pattern ⟨some pattern, n⟩
      (append_input ⟨buffer, stored, SyncState.SEARCHING⟩ chunk extra)
      = some ⟨some Sym.STOP, ⟨buffer ++ chunk, extra, SyncState.SEARCHING⟩, []⟩ := by
    rw [append_input_chunk _ _ _ hc]
    exact handle_sync_pattern_searching pattern n (buffer ++ chunk) extra _ _ _ _
      (sync_loop_insufficient pattern _ _ hlen)
  exact read_data_stop _ chain fuel _ chunk extra _ Sym.STOP hsync rfl hc

/-- C5, witness: pattern "AB", empty buffer, chunk "A". -/
theorem insufficient_data_stops_witness :
    read_data (E := Nat) ⟨some [65, 66], 0⟩ terminal_stage (0 + 1)
        ⟨[], none, SyncState.SEARCHING⟩ [65] none
      = some ⟨Outcome.symbol Sym.STOP, ⟨[] ++ [65], none, SyncState.SEARCHING⟩, [], []⟩ :=
  insufficient_data_stops [65, 66] 0 terminal_stage 0 [] none [65] none
    (by decide) (by decide)

/-- C6 (no pattern start anywhere): with a non-empty sync pattern, from
`SEARCHING`, when the buffer after a non-empty chunk was appended is at least
as long as the pattern and holds no byte equal to the first pattern byte, the
read reports one discard event (the whole length, not matched), leaves the
buffer empty and returns `:STOP`. -/
theorem no_pattern_start_discards_all {E : Type} (p0 : Byte) (ps : List Byte) (n : Int)
    (chain : List Byte → Option E → Outcome E) (fuel : Nat) (buffer : List Byte)
    (stored : Option E) (chunk : List Byte) (extra : Option E)
    (hc : chunk ≠ []) (hlen : (p0 :: ps).length ≤ (buffer ++ chunk).length)
    (hno : ∀ x ∈ buffer ++ chunk, x ≠ p0) :
    read_data ⟨some (p0 :: ps), n⟩ chain (fuel + 1) ⟨buffer, stored, SyncState.SEARCHING⟩
        chunk extra
      = some ⟨Outcome.symbol Sym.STOP, ⟨[], extra, SyncState.SEARCHING⟩,
          [((buffer ++ chunk).length, false)], []⟩ := by
  have hsync : handle_sync_pattern ⟨some (p0 :: ps), n⟩
      (append_input ⟨buffer, stored, SyncState.SEARCHING⟩ chunk extra)
      = some ⟨some Sym.STOP, ⟨[], extra, SyncState.SEARCHING⟩,
          [((buffer ++ chunk).length, false)]⟩ := by
    rw [append_input_chunk _ _ _ hc]
    exact handle_sync_pattern_searching (p0 :: ps) n (buffer ++ chunk) extra _ _ _ _
      (sync_loop_no_start (p0 :: ps) _ _ hlen hno)
  exact read_data_stop _ chain fuel _ chunk extra _ Sym.STOP hsync rfl hc

/-- C6, witness: pattern "AB", buffer "X", chunk "YZ". -/
theorem no_pattern_start_discards_all_witness :
    read_data (E := Nat) ⟨some (65 :: [66]), 0⟩ terminal_stage (0 + 1)
        ⟨[88], none, SyncState.SEARCHING⟩ [89, 90] (some 4)
      = some ⟨Outcome.symbol Sym.STOP, ⟨[], some 4, SyncState.SEARCHING⟩,
          [(([88] ++ [89, 90]).length, false)], []⟩ :=
  no_pattern_start_discards_all 65 [66] 0 terminal_stage 0 [88] none [89, 90] (some 4)
    (by decide) (by decide) (by decide)

/-- C8 (stored-metadata update rule): every read returns, and `@extra`
afterwards is the supplied extra when the chunk is not empty or an extra is
supplied, and the value stored before when the chunk is empty and no extra is
supplied. -/
theorem stored_extra_update_rule {E : Type} (cfg : Config)
    (chain : List Byte → Option E → Outcome E) (fuel : Nat) (st : State E)
    (chunk : List Byte) (extra : Option E) :
    ∃ r, read_data cfg chain (fuel + 1) st chunk extra = some r
      ∧ (chunk ≠ [] ∨ extra ≠ none → r.state.extra = extra)
      ∧ (chunk = [] ∧ extra = none → r.state.extra = st.extra) := by
  obtain ⟨r, hr, hx⟩ := read_data_total cfg chain fuel st chunk extra
  refine ⟨r, hr, ?_, ?_⟩
  · intro h
    rw [hx]
    rcases h with h | h
    · rw [append_input_chunk _ _ _ h]
    · cases extra with
      | none => exact absurd rfl h
      | some e => simp [append_input]
  · rintro ⟨h1, h2⟩
    subst h1 h2
    rw [hx, append_input_probe]

/-- C8, witness: `read("", E2)` with an empty chunk stores `E2` = 2 over 1. -/
theorem stored_extra_update_rule_witness :
    (read_data (E := Nat) ⟨none, 0⟩ terminal_stage 1 ⟨[], some 1, SyncState.SEARCHING⟩
        [] (some 2)).map (fun r => r.state.extra) = some (some 2)
    ∧ ∃ r, read_data (E := Nat) ⟨none, 0⟩ terminal_stage (0 + 1)
          ⟨[], some 1, SyncState.SEARCHING⟩ [] (some 2) = some r
      ∧ (([] : List Byte) ≠ [] ∨ some 2 ≠ none → r.state.extra = some 2)
      ∧ (([] : List Byte) = [] ∧ some 2 = none →
          r.state.extra = (⟨[], some 1, SyncState.SEARCHING⟩ : State Nat).extra) :=
  ⟨by decide,
   stored_extra_update_rule ⟨none, 0⟩ terminal_stage 0 ⟨[], some 1, SyncState.SEARCHING⟩
     [] (some 2)⟩

/-- C9, counterexample: the probe `read("", 7)` on an empty buffer calls the
next stage with `nil`, not with the extra 7 it was given. -/
theorem probe_forwards_nil_extra :
    read_data (E := Nat) ⟨none, 0⟩ terminal_stage 1 initial_state [] (some 7)
      = some ⟨Outcome.pair (PacketData.sym Sym.STOP) none,
          ⟨[], some 7, SyncState.SEARCHING⟩, [], [([], none)]⟩
    ∧ (read_data (E := Nat) ⟨none, 0⟩ terminal_stage 1 initial_state [] (some 7)).map
        (fun r => r.forwards) ≠ some [([], some 7)] := by
  decide

/-- C9 (amended): a probe on an empty buffer calls the next stage once, with
the same empty chunk and with `nil` as extra (the bare `:STOP` of the extractor
resets the working extra), and returns the next stage's value unchanged. -/
theorem probe_forwarding_passes_nil {E : Type} (cfg : Config)
    (chain : List Byte → Option E → Outcome E) (fuel : Nat) (st : State E)
    (extra : Option E) (he : st.data = []) :
    ∃ r, read_data cfg chain (fuel + 1) st [] extra = some r
      ∧ r.forwards = [([], none)]
      ∧ r.ret = chain [] none := by
  obtain ⟨sync, hsync⟩ := handle_sync_pattern_total cfg (append_input st [] extra)
  have hd : (append_input st [] extra).data = [] := by
    rw [append_input_data, he]
    rfl
  have hs := handle_sync_pattern_empty cfg _ sync hd hsync
  exact ⟨_, read_data_probe_empty cfg chain fuel st extra sync hsync (by rw [hs, hd]),
    rfl, rfl⟩

/-- C9 (amended), witness: the probe `read("", 7)` on the initial state. -/
theorem probe_forwarding_passes_nil_witness :
    ∃ r, read_data (E := Nat) ⟨some [65, 66], 0⟩ terminal_stage (0 + 1) initial_state []
          (some 7) = some r
      ∧ r.forwards = [([], none)]
      ∧ r.ret = terminal_stage [] none :=
  probe_forwarding_passes_nil ⟨some [65, 66], 0⟩ terminal_stage 0 initial_state (some 7)
    (by decide)

/-- C10 (idempotent probing): for every configuration and every state with an
empty buffer, when the next stage answers a probe with STOP, `read("", nil)`
returns the STOP outcome and leaves buffer, stored extra and sync state as they
were, so any number of repeated probes give that same result. -/
theorem probing_empty_buffer_is_idempotent {E : Type} (cfg : Config)
    (chain : List Byte → Option E → Outcome E) (fuel : Nat) (st : State E)
    (he : st.data = []) (hterm : ∀ x, (chain [] x).is_stop = true) :
    ∃ r, read_data cfg chain (fuel + 1) st [] none = some r
      ∧ r.ret.is_stop = true
      ∧ r.state = st
      ∧ ∀ n, read_all cfg chain (fuel + 1) st (List.replicate n ([], none))
          = some (List.replicate n r) := by
  obtain ⟨sync, hsync⟩ := handle_sync_pattern_total cfg (append_input st [] none)
  rw [append_input_probe] at hsync
  have hs := handle_sync_pattern_empty cfg st sync he hsync
  have hr := read_data_probe_empty cfg chain fuel st none sync
    (by rw [append_input_probe]; exact hsync) (by rw [hs, he])
  refine ⟨_, hr, hterm none, hs, ?_⟩
  intro n
  induction n with
  | zero => rfl
  | succ n ih =>
    simp only [List.replicate_succ, read_all, hr, hs, ih]

/-- C10, witness: the sync pattern "AB", the state after `read("", 3)` on a fresh
protocol, and a terminal next stage. -/
theorem probing_empty_buffer_is_idempotent_witness :
    ∃ r, read_data (E := Nat) ⟨some [65, 66], 2⟩ terminal_stage (0 + 1)
          ⟨[], some 3, SyncState.SEARCHING⟩ [] none = some r
      ∧ r.ret.is_stop = true
      ∧ r.state = ⟨[], some 3, SyncState.SEARCHING⟩
      ∧ ∀ n, read_all ⟨some [65, 66], 2⟩ terminal_stage (0 + 1)
            ⟨[], some 3, SyncState.SEARCHING⟩ (List.replicate n ([], none))
          = some (List.replicate n r) :=
  probing_empty_buffer_is_idempotent ⟨some [65, 66], 2⟩ terminal_stage 0
    ⟨[], some 3, SyncState.SEARCHING⟩ rfl (fun _ => rfl)

/-! ## Accounting for the bytes of the sync loop -/

theorem sync_loop_eq_turn (pattern : List Byte) (fuel : Nat) (data : List Byte) :
    sync_loop pattern (fuel + 1) data
      = match sync_turn pattern data with
        | SyncTurn.stop rest events => some (some Sym.STOP, rest, events, false)
        | SyncTurn.found rest events => some (none, rest, events, true)
        | SyncTurn.again rest event =>
          match sync_loop pattern fuel rest with
          | some (control, rest2, events, found) =>
            some (control, rest2, event :: events, found)
          | none => none := by
  conv_lhs => unfold sync_loop
  unfold sync_turn
  by_cases h1 : data.length < pattern.length
  · simp only [h1, if_true]
  · simp only [h1, if_false]
    cases find_sync_index (pattern.headD 0) data with
    | none => rfl
    | some i =>
      simp only
      by_cases h2 : data.length < i + pattern.length
      · simp only [h2, if_true]
      · simp only [h2, if_false]
        by_cases h3 : sync_found (data.drop i) pattern = true
        · simp only [h3, if_true]
          by_cases h4 : i = 0
          · simp [h4]
          · simp [h4]
        · simp [h3]

/-- A turn of the sync loop that goes on has removed at least one byte. -/
theorem sync_turn_again_shrinks (pattern data rest : List Byte) (event : Discard)
    (h : sync_turn pattern data = SyncTurn.again rest event) :
    rest.length < data.length := by
  unfold sync_turn at h
  split at h
  · simp at h
  · split at h
    · rename_i i hi
      have hlt := find_sync_index_lt _ _ _ hi
      split at h
      · simp at h
      · split at h
        · split at h <;> simp at h
        · simp at h
          rw [← h.1]
          simp
          omega
    · simp at h

/-- What the sync loop leaves is the buffer without its first bytes, as many
as the discard events count. -/
theorem sync_loop_suffix (pattern : List Byte) (fuel : Nat) (data : List Byte)
    (control : Option Sym) (rest : List Byte) (events : List Discard) (found : Bool)
    (h : sync_loop pattern fuel data = some (control, rest, events, found)) :
    discard_count events ≤ data.length ∧ rest = data.drop (discard_count events) := by
  induction fuel generalizing data control rest events found with
  | zero => simp [sync_loop] at h
  | succ fuel ih =>
    unfold sync_loop at h
    split at h
    · simp at h
      obtain ⟨_, h2, h3, _⟩ := h
      subst h2 h3
      simp [discard_count]
    · split at h
      · rename_i i hi
        have hlt := find_sync_index_lt _ _ _ hi
        split at h
        · simp at h
          obtain ⟨_, h2, h3, _⟩ := h
          subst h2 h3
          simp [discard_count]
        · split at h
          · split at h
            · simp at h
              obtain ⟨_, h2, h3, _⟩ := h
              subst h2 h3
              simp [discard_count]
              omega
            · simp at h
              obtain ⟨_, h2, h3, _⟩ := h
              subst h2 h3
              simp [discard_count]
          · split at h
            · rename_i c r ev f hrec
              simp at h
              obtain ⟨_, h2, h3, _⟩ := h
              subst h2 h3
              obtain ⟨ih1, ih2⟩ := ih _ _ _ _ _ hrec
              simp only [List.length_drop] at ih1
              refine ⟨?_, ?_⟩
              · simp only [discard_count, List.map_cons, List.sum_cons] at *
                omega
              · rw [ih2, List.drop_drop]
                simp only [discard_count, List.map_cons, List.sum_cons]
            · simp at h
      · simp at h
        obtain ⟨_, h2, h3, _⟩ := h
        subst h2 h3
        simp [discard_count]

theorem sync_loop_turns_bounded (pattern : List Byte) (m : Nat) (data : List Byte)
    (hm : data.length ≤ m) :
    ∃ n, n ≤ data.length + 1
      ∧ ∀ fuel, data.length < fuel → sync_loop_turns pattern fuel data = some n := by
  induction m generalizing data with
  | zero =>
    cases hst : sync_turn pattern data with
    | again rest event =>
      have := sync_turn_again_shrinks pattern data rest event hst
      omega
    | stop rest events =>
      refine ⟨1, by omega, ?_⟩
      intro fuel hfuel
      obtain ⟨f, rfl⟩ := Nat.exists_eq_succ_of_ne_zero (by omega : fuel ≠ 0)
      simp [sync_loop_turns, hst]
    | found rest events =>
      refine ⟨1, by omega, ?_⟩
      intro fuel hfuel
      obtain ⟨f, rfl⟩ := Nat.exists_eq_succ_of_ne_zero (by omega : fuel ≠ 0)
      simp [sync_loop_turns, hst]
  | succ m ih =>
    cases hst : sync_turn pattern data with
    | again rest event =>
      have hlt := sync_turn_again_shrinks pattern data rest event hst
      obtain ⟨n, hn, hall⟩ := ih rest (by omega)
      refine ⟨n + 1, by omega, ?_⟩
      intro fuel hfuel
      obtain ⟨f, rfl⟩ := Nat.exists_eq_succ_of_ne_zero (by omega : fuel ≠ 0)
      simp [sync_loop_turns, hst, hall f (by omega)]
    | stop rest events =>
      refine ⟨1, by omega, ?_⟩
      intro fuel hfuel
      obtain ⟨f, rfl⟩ := Nat.exists_eq_succ_of_ne_zero (by omega : fuel ≠ 0)
      simp [sync_loop_turns, hst]
    | found rest events =>
      refine ⟨1, by omega, ?_⟩
      intro fuel hfuel
      obtain ⟨f, rfl⟩ := Nat.exists_eq_succ_of_ne_zero (by omega : fuel ≠ 0)
      simp [sync_loop_turns, hst]

/-- C16 (the sync matcher terminates): a turn of the loop of
`handle_sync_pattern` that does not return leaves a strictly shorter buffer,
the loop takes a number of turns that is at most the buffer length plus one,
and with that many turns allowed the loop and the method return. -/
theorem sync_matcher_terminates (pattern data : List Byte) :
    (∀ rest event, sync_turn pattern data = SyncTurn.again rest event →
        rest.length < data.length)
    ∧ (∃ n, n ≤ data.length + 1
        ∧ ∀ fuel, data.length < fuel → sync_loop_turns pattern fuel data = some n)
    ∧ (∀ fuel, data.length < fuel → ∃ r, sync_loop pattern fuel data = some r)
    ∧ ∀ (E : Type) (n : Int) (stored : Option E) (ss : SyncState),
        ∃ sync, handle_sync_pattern ⟨some pattern, n⟩ ⟨data, stored, ss⟩ = some sync :=
  ⟨fun rest event h => sync_turn_again_shrinks pattern data rest event h,
   sync_loop_turns_bounded pattern data.length data (Nat.le_refl _),
   fun fuel h => sync_loop_total pattern fuel data h,
   fun _ n stored ss => handle_sync_pattern_total ⟨some pattern, n⟩ ⟨data, stored, ss⟩⟩

/-- C16, witness: the pattern "AB" on the buffer "AAA" takes three turns, two
of them removing one byte each, and returns `:STOP`. -/
theorem sync_matcher_terminates_witness :
    sync_loop_turns [65, 66] 4 [65, 65, 65] = some 3
    ∧ sync_loop [65, 66] 4 [65, 65, 65]
        = some (some Sym.STOP, [65], [(1, false), (1, false)], false)
    ∧ (∀ rest event, sync_turn [65, 66] [65, 65, 65] = SyncTurn.again rest event →
        rest.length < [65, 65, 65].length) :=
  ⟨by decide, by decide, (sync_matcher_terminates [65, 66] [65, 65, 65]).1⟩

/-- C17 (the sync matcher is a no-op outside searching with a pattern): when no
sync pattern is configured or the sync state is `FOUND`, `handle_sync_pattern`
returns `nil`, logs no discard and leaves buffer, stored extra and sync state
as they were. -/
theorem sync_matcher_noop {E : Type} (cfg : Config) (st : State E)
    (h : cfg.sync_pattern = none ∨ st.sync_state = SyncState.FOUND) :
    handle_sync_pattern cfg st = some ⟨none, st, []⟩ := by
  unfold handle_sync_pattern
  rcases h with h | h
  · rw [h]
  · cases hp : cfg.sync_pattern with
    | none => rfl
    | some pattern => simp [h]

/-- C17, witness: the pattern "AB" with the state `FOUND` and the buffer "XAB". -/
theorem sync_matcher_noop_witness :
    handle_sync_pattern (E := Nat) ⟨some [65, 66], 0⟩ ⟨[88, 65, 66], some 1, SyncState.FOUND⟩
      = some ⟨none, ⟨[88, 65, 66], some 1, SyncState.FOUND⟩, []⟩ :=
  sync_matcher_noop ⟨some [65, 66], 0⟩ ⟨[88, 65, 66], some 1, SyncState.FOUND⟩ (Or.inr rfl)

/-- C18 (whole-buffer extraction): on an empty buffer `reduce_to_single_packet`
returns the bare `:STOP` and changes nothing; otherwise it returns the pair of
the entire buffer and the stored extra, and leaves the buffer empty and the
stored extra and the sync state as they were. -/
theorem whole_buffer_extraction {E : Type} (st : State E) :
    (st.data = [] →
        reduce_to_single_packet st = (Reduced.bare (PacketData.sym Sym.STOP), st))
    ∧ (st.data ≠ [] →
        reduce_to_single_packet st
          = (Reduced.array2 (PacketData.str st.data) st.extra,
              ⟨[], st.extra, st.sync_state⟩)) := by
  constructor
  · intro h
    simp [reduce_to_single_packet, h]
  · intro h
    simp [reduce_to_single_packet, h]

/-- C18, witness: the buffer "AB" with the extra 7 in the state `FOUND`. -/
theorem whole_buffer_extraction_witness :
    reduce_to_single_packet (E := Nat) ⟨[65, 66], some 7, SyncState.FOUND⟩
      = (Reduced.array2 (PacketData.str [65, 66]) (some 7), ⟨[], some 7, SyncState.FOUND⟩) :=
  (whole_buffer_extraction (E := Nat) ⟨[65, 66], some 7, SyncState.FOUND⟩).2 (by decide)

/-! ## One read of the burst protocol, by cases -/

theorem first_occurrence_exists (pattern data : List Byte)
    (h : ∃ k, pattern <+: data.drop k) :
    ∃ k, pattern <+: data.drop k ∧ ∀ j, j < k → ¬ pattern <+: data.drop j := by
  classical
  exact ⟨Nat.find h, Nat.find_spec h, fun j hj => Nat.find_min h hj⟩

/-- What `handle_sync_pattern` leaves is the buffer without its first bytes, as
many as its discard events count; the stored extra is untouched. -/
theorem handle_sync_pattern_accounting {E : Type} (cfg : Config) (st : State E)
    (sync : SyncResult E) (h : handle_sync_pattern cfg st = some sync) :
    discard_count sync.discards ≤ st.data.length
      ∧ sync.state.data = st.data.drop (discard_count sync.discards) := by
  unfold handle_sync_pattern at h
  split at h
  · split at h
    · split at h
      · rename_i c rest ev f hloop
        simp at h
        subst h
        exact sync_loop_suffix _ _ _ _ _ _ _ hloop
      · simp at h
    · simp at h
      subst h
      simp [discard_count]
  · simp at h
    subst h
    simp [discard_count]

/-- From `SEARCHING`, with a sync pattern that is absent or not empty,
`handle_sync_pattern` either leaves the state `SEARCHING` or returns `nil` with
a buffer that is not empty. -/
theorem handle_sync_pattern_state {E : Type} (cfg : Config) (st : State E)
    (sync : SyncResult E) (hcfg : cfg.sync_pattern ≠ some [])
    (hs : st.sync_state = SyncState.SEARCHING)
    (h : handle_sync_pattern cfg st = some sync) :
    sync.state.sync_state = SyncState.SEARCHING
      ∨ (sync.control = none ∧ sync.state.data ≠ []) := by
  unfold handle_sync_pattern at h
  cases hpat : cfg.sync_pattern with
  | none =>
    rw [hpat] at h
    simp at h
    subst h
    exact Or.inl hs
  | some pattern =>
    rw [hpat] at h
    simp only [hs, if_true] at h
    obtain ⟨⟨c, rest, ev, f⟩, hloop⟩ :=
      sync_loop_total pattern (st.data.length + 1) st.data (by omega)
    rw [hloop] at h
    simp at h
    subst h
    rcases sync_loop_outcome _ _ _ _ _ _ _ hloop with ⟨h1, _, h3⟩ | ⟨_, h2⟩
    · right
      refine ⟨h1, ?_⟩
      intro he
      simp only at he
      rw [he] at h3
      rw [hpat, List.prefix_nil.1 h3] at hcfg
      exact hcfg rfl
    · left
      simp [h2]

/-- The four ways one `read_data` call of the burst protocol ends. -/
theorem read_data_shape {E : Type} (cfg : Config) (chain : List Byte → Option E → Outcome E)
    (fuel : Nat) (st : State E) (data : List Byte) (extra : Option E) :
    ∃ sync, handle_sync_pattern cfg (append_input st data extra) = some sync
      ∧ ((∃ s, sync.control = some s ∧ data ≠ []
            ∧ read_data cfg chain (fuel + 1) st data extra
              = some ⟨Outcome.symbol s, sync.state, sync.discards, []⟩)
        ∨ ((sync.control = none ∨ data = []) ∧ sync.state.data ≠ []
            ∧ read_data cfg chain (fuel + 1) st data extra
              = some ⟨discard_leading cfg (PacketData.str sync.state.data) sync.state.extra,
                  ⟨[], sync.state.extra, SyncState.SEARCHING⟩, sync.discards, []⟩)
        ∨ (data = [] ∧ sync.state.data = []
            ∧ read_data cfg chain (fuel + 1) st data extra
              = some ⟨chain [] none, sync.state, sync.discards, [([], none)]⟩)
        ∨ (sync.control = none ∧ data ≠ [] ∧ sync.state.data = []
            ∧ read_data cfg chain (fuel + 1) st data extra
              = some ⟨Outcome.pair (PacketData.sym Sym.STOP) none, sync.state,
                  sync.discards, []⟩)) := by
  obtain ⟨sync, hsync⟩ := handle_sync_pattern_total cfg (append_input st data extra)
  refine ⟨sync, hsync, ?_⟩
  by_cases hne : sync.state.data = []
  · by_cases hd : data = []
    · subst hd
      exact Or.inr (Or.inr (Or.inl ⟨rfl, hne,
        read_data_probe_empty cfg chain fuel st extra sync hsync hne⟩))
    · cases hc : sync.control with
      | none =>
        exact Or.inr (Or.inr (Or.inr ⟨rfl, hd, hne,
          read_data_no_data cfg chain fuel st data extra sync hsync hc hne hd⟩))
      | some s =>
        exact Or.inl ⟨s, rfl, hd, read_data_stop cfg chain fuel st data extra sync s hsync hc hd⟩
  · by_cases hd : data = []
    · exact Or.inr (Or.inl ⟨Or.inr hd, hne,
        read_data_packet cfg chain fuel st data extra sync hsync (Or.inr hd) hne⟩)
    · cases hc : sync.control with
      | none =>
        exact Or.inr (Or.inl ⟨Or.inl rfl, hne,
          read_data_packet cfg chain fuel st data extra sync hsync (Or.inl hc) hne⟩)
      | some s =>
        exact Or.inl ⟨s, rfl, hd, read_data_stop cfg chain fuel st data extra sync s hsync hc hd⟩

/-- One read from `SEARCHING` ends in `SEARCHING`, for a sync pattern that is
absent or not empty. -/
theorem read_data_keeps_searching {E : Type} (cfg : Config)
    (chain : List Byte → Option E → Outcome E) (fuel : Nat) (st : State E)
    (data : List Byte) (extra : Option E) (hcfg : cfg.sync_pattern ≠ some [])
    (hs : st.sync_state = SyncState.SEARCHING) :
    ∃ r, read_data cfg chain (fuel + 1) st data extra = some r
      ∧ r.state.sync_state = SyncState.SEARCHING := by
  obtain ⟨sync, hsync, hcases⟩ := read_data_shape cfg chain fuel st data extra
  have hst := handle_sync_pattern_state cfg _ sync hcfg
    (by rw [append_input_sync_state]; exact hs) hsync
  rcases hcases with ⟨s, hc, _, hr⟩ | ⟨_, _, hr⟩ | ⟨_, he, hr⟩ | ⟨_, _, he, hr⟩
  · refine ⟨_, hr, ?_⟩
    rcases hst with h | ⟨h, _⟩
    · exact h
    · rw [hc] at h
      simp at h
  · exact ⟨_, hr, rfl⟩
  · refine ⟨_, hr, ?_⟩
    rcases hst with h | ⟨_, h⟩
    · exact h
    · exact absurd he h
  · refine ⟨_, hr, ?_⟩
    rcases hst with h | ⟨_, h⟩
    · exact h
    · exact absurd he h

/-- One read of the burst protocol accounts for every byte: what is left in
the buffer, what the discard events count and the raw payload taken out add up
to the buffer before plus the chunk. -/
theorem read_data_accounting {E : Type} (cfg : Config)
    (chain : List Byte → Option E → Outcome E) (fuel : Nat) (st : State E)
    (data : List Byte) (extra : Option E) :
    ∃ r, read_data cfg chain (fuel + 1) st data extra = some r
      ∧ r.state.data.length + discard_count r.discards
          + (raw_payload cfg st data extra).length = st.data.length + data.length := by
  obtain ⟨sync, hsync, hcases⟩ := read_data_shape cfg chain fuel st data extra
  obtain ⟨hle, hrest⟩ := handle_sync_pattern_accounting cfg _ sync hsync
  rw [append_input_data] at hle hrest
  have hlen : sync.state.data.length + discard_count sync.discards
      = st.data.length + data.length := by
    rw [hrest, List.length_drop]
    simp only [List.length_append] at hle ⊢
    omega
  rcases hcases with ⟨s, hc, hd, hr⟩ | ⟨hgo, hne, hr⟩ | ⟨hd, he, hr⟩ | ⟨hc, hd, he, hr⟩
  · refine ⟨_, hr, ?_⟩
    have hpos : 0 < data.length := List.length_pos.2 hd
    simp only [raw_payload, hsync, hc, hpos]
    simpa using hlen
  · refine ⟨_, hr, ?_⟩
    have hraw : raw_payload cfg st data extra = sync.state.data := by
      have h1 : ¬ sync.state.data.length ≤ 0 := by
        have := List.length_pos.2 hne
        omega
      rcases hgo with hgo | hgo
      · simp [raw_payload, hsync, hgo, reduce_to_single_packet, hne]
      · subst hgo
        simp [raw_payload, hsync, reduce_to_single_packet, hne]
    rw [hraw]
    simp only [List.length_nil]
    omega
  · refine ⟨_, hr, ?_⟩
    have hraw : raw_payload cfg st data extra = [] := by
      subst hd
      simp [raw_payload, hsync, reduce_to_single_packet, he]
    rw [hraw]
    simpa using hlen
  · refine ⟨_, hr, ?_⟩
    have hraw : raw_payload cfg st data extra = [] := by
      simp [raw_payload, hsync, hc, reduce_to_single_packet, he]
    rw [hraw]
    simpa using hlen

/-- The raw payload of a read is what the read hands back: when it is not
empty, the value returned is that payload after the leading discard (or the
exception the discard raises), nothing is passed on and the buffer is empty. -/
theorem raw_payload_returned {E : Type} (cfg : Config)
    (chain : List Byte → Option E → Outcome E) (fuel : Nat) (st : State E)
    (data : List Byte) (extra : Option E) (h : raw_payload cfg st data extra ≠ []) :
    ∃ r, read_data cfg chain (fuel + 1) st data extra = some r
      ∧ r.ret = discard_leading cfg (PacketData.str (raw_payload cfg st data extra))
          r.state.extra
      ∧ r.forwards = []
      ∧ r.state.data = [] := by
  obtain ⟨sync, hsync, hcases⟩ := read_data_shape cfg chain fuel st data extra
  rcases hcases with ⟨s, hc, hd, _⟩ | ⟨hgo, hne, hr⟩ | ⟨hd, he, _⟩ | ⟨hc, _, he, _⟩
  · exfalso
    apply h
    have hpos : 0 < data.length := List.length_pos.2 hd
    simp [raw_payload, hsync, hc, hpos]
  · have hraw : raw_payload cfg st data extra = sync.state.data := by
      rcases hgo with hgo | hgo
      · simp [raw_payload, hsync, hgo, reduce_to_single_packet, hne]
      · subst hgo
        simp [raw_payload, hsync, reduce_to_single_packet, hne]
    rw [hraw]
    exact ⟨_, hr, rfl, rfl, rfl⟩
  · exfalso
    apply h
    subst hd
    simp [raw_payload, hsync, reduce_to_single_packet, he]
  · exfalso
    apply h
    simp [raw_payload, hsync, hc, reduce_to_single_packet, he]

/-- Each turn of the sync loop removes from the front of the buffer exactly as
many bytes as the discard event it logs counts. -/
theorem sync_turn_accounting (pattern data : List Byte) :
    match sync_turn pattern data with
    | SyncTurn.stop rest events => rest = data.drop (discard_count events)
    | SyncTurn.found rest events => rest = data.drop (discard_count events)
    | SyncTurn.again rest event => rest = data.drop event.1 := by
  unfold sync_turn
  by_cases h1 : data.length < pattern.length
  · simp [h1, discard_count]
  · simp only [h1, if_false]
    cases find_sync_index (pattern.headD 0) data with
    | none => simp [discard_count]
    | some i =>
      simp only
      by_cases h2 : data.length < i + pattern.length
      · simp [h2, discard_count]
      · simp only [h2, if_false]
        by_cases h3 : sync_found (data.drop i) pattern = true
        · simp only [h3, if_true]
          by_cases h4 : i = 0
          · simp [h4, discard_count]
          · simp [h4, discard_count]
        · simp [h3]

/-- C11 (buffer byte conservation): from the empty buffer, every sequence of
reads returns, and the buffer length afterwards is the sum of the chunk lengths
minus the sum of the discard counts minus the sum of the lengths of the raw
payloads taken out (stated also without subtraction: the three and the buffer
add up to the chunks). -/
theorem buffer_bytes_are_conserved {E : Type} (cfg : Config)
    (chain : List Byte → Option E → Outcome E) (fuel : Nat)
    (calls : List (List Byte × Option E)) :
    ∃ rs, read_all cfg chain (fuel + 1) initial_state calls = some rs
      ∧ (state_after initial_state rs).data.length + discard_total rs
          + payload_total (raw_payloads cfg chain (fuel + 1) initial_state calls)
        = (calls.map (fun call => call.1.length)).sum
      ∧ (state_after initial_state rs).data.length
        = (calls.map (fun call => call.1.length)).sum - discard_total rs
          - payload_total (raw_payloads cfg chain (fuel + 1) initial_state calls) := by
  suffices h : ∀ (st : State E),
      ∃ rs, read_all cfg chain (fuel + 1) st calls = some rs
        ∧ (state_after st rs).data.length + discard_total rs
            + payload_total (raw_payloads cfg chain (fuel + 1) st calls)
          = st.data.length + (calls.map (fun call => call.1.length)).sum by
    obtain ⟨rs, h1, h2⟩ := h initial_state
    have h0 : (initial_state : State E).data.length = 0 := rfl
    rw [h0, Nat.zero_add] at h2
    exact ⟨rs, h1, h2, by omega⟩
  induction calls with
  | nil =>
    intro st
    exact ⟨[], rfl, by simp [state_after, discard_total, raw_payloads, payload_total]⟩
  | cons call calls ih =>
    intro st
    obtain ⟨data, extra⟩ := call
    obtain ⟨r, hr, hacc⟩ := read_data_accounting cfg chain fuel st data extra
    obtain ⟨rs, hrs, hsum⟩ := ih r.state
    refine ⟨r :: rs, by simp [read_all, hr, hrs], ?_⟩
    simp only [state_after, discard_total, raw_payloads, hr, payload_total, List.map_cons,
      List.sum_cons] at hsum ⊢
    omega

/-- C11, witness: the pattern "AB" and the chunks "XA", "BCD", "ZZ": seven bytes
appended, three discarded, four taken out as the payload "ABCD", none left. -/
theorem buffer_bytes_are_conserved_witness :
    (read_all (E := Nat) ⟨some [65, 66], 0⟩ terminal_stage 1 initial_state
        [([88, 65], none), ([66, 67, 68], none), ([90, 90], none)]).map
      (fun rs => (discard_total rs, (state_after initial_state rs).data)) = some (3, [])
    ∧ raw_payloads (E := Nat) ⟨some [65, 66], 0⟩ terminal_stage 1 initial_state
        [([88, 65], none), ([66, 67, 68], none), ([90, 90], none)]
      = [[], [65, 66, 67, 68], []]
    ∧ ∃ rs, read_all (E := Nat) ⟨some [65, 66], 0⟩ terminal_stage (0 + 1) initial_state
          [([88, 65], none), ([66, 67, 68], none), ([90, 90], none)] = some rs
      ∧ (state_after initial_state rs).data.length + discard_total rs
          + payload_total (raw_payloads (E := Nat) ⟨some [65, 66], 0⟩ terminal_stage (0 + 1)
              initial_state
              [([88, 65], none), ([66, 67, 68], none), ([90, 90], none)])
        = ([([88, 65], (none : Option Nat)), ([66, 67, 68], none), ([90, 90], none)].map
            (fun call => call.1.length)).sum
      ∧ (state_after initial_state rs).data.length
        = ([([88, 65], (none : Option Nat)), ([66, 67, 68], none), ([90, 90], none)].map
            (fun call => call.1.length)).sum - discard_total rs
          - payload_total (raw_payloads (E := Nat) ⟨some [65, 66], 0⟩ terminal_stage (0 + 1)
              initial_state
              [([88, 65], none), ([66, 67, 68], none), ([90, 90], none)]) :=
  ⟨by decide, by decide,
   buffer_bytes_are_conserved ⟨some [65, 66], 0⟩ terminal_stage 0
     [([88, 65], none), ([66, 67, 68], none), ([90, 90], none)]⟩

/-- C13 (a STOP on a non-empty chunk skips the extraction): with a non-empty
sync pattern, from `SEARCHING`, a read with a non-empty chunk returns STOP
exactly when the pattern does not occur in the buffer with the chunk appended;
then no packet is taken out and nothing is passed on: the buffer left is the
buffer with the chunk appended less exactly the bytes the discard events of the
read account for, the working extra is the one of the call, and the state is
`SEARCHING`. -/
theorem nonprobe_stop_iff_pattern_absent {E : Type} (pattern : List Byte) (n : Int)
    (chain : List Byte → Option E → Outcome E) (fuel : Nat) (buffer : List Byte)
    (stored : Option E) (chunk : List Byte) (extra : Option E)
    (hp : pattern ≠ []) (hc : chunk ≠ []) :
    ∃ r, read_data ⟨some pattern, n⟩ chain (fuel + 1)
          ⟨buffer, stored, SyncState.SEARCHING⟩ chunk extra = some r
      ∧ (r.ret.is_stop = true ↔ ¬ ∃ k, pattern <+: (buffer ++ chunk).drop k)
      ∧ ((¬ ∃ k, pattern <+: (buffer ++ chunk).drop k) →
          r.ret = Outcome.symbol Sym.STOP
            ∧ raw_payload ⟨some pattern, n⟩ ⟨buffer, stored, SyncState.SEARCHING⟩ chunk extra
                = []
            ∧ r.forwards = []
            ∧ r.state.data <:+ buffer ++ chunk
            ∧ r.state.sync_state = SyncState.SEARCHING
            ∧ r.state.data = (buffer ++ chunk).drop (discard_count r.discards)
            ∧ discard_count r.discards ≤ (buffer ++ chunk).length
            ∧ r.state.extra = extra) := by
  obtain ⟨⟨c, rest, ev, f⟩, hloop⟩ := sync_loop_total pattern
    ((buffer ++ chunk).length + 1) (buffer ++ chunk) (by omega)
  have hsync : handle_sync_pattern ⟨some pattern, n⟩
      (append_input ⟨buffer, stored, SyncState.SEARCHING⟩ chunk extra)
      = some ⟨c, ⟨rest, extra, if f then SyncState.FOUND else SyncState.SEARCHING⟩, ev⟩ := by
    rw [append_input_chunk _ _ _ hc]
    exact handle_sync_pattern_searching pattern n (buffer ++ chunk) extra _ _ _ _ hloop
  obtain ⟨hcount, hrest⟩ := sync_loop_suffix _ _ _ _ _ _ _ hloop
  rcases sync_loop_outcome _ _ _ _ _ _ _ hloop with ⟨h1, h2, h3⟩ | ⟨h1, h2⟩
  · subst h1 h2
    have hocc : ∃ k, pattern <+: (buffer ++ chunk).drop k := ⟨_, hrest ▸ h3⟩
    have hne : rest ≠ [] := by
      intro h
      rw [h] at h3
      exact hp (List.prefix_nil.1 h3)
    refine ⟨_, read_data_packet _ chain fuel _ chunk extra _ hsync (Or.inl rfl) hne, ?_, ?_⟩
    · constructor
      · intro hstop
        rcases discard_leading_cases ⟨some pattern, n⟩ rest extra with ⟨q, hq⟩ | hq
        · simp only [hq, Outcome.is_stop] at hstop
          exact absurd hstop (by decide)
        · simp only [hq, Outcome.is_stop] at hstop
          exact absurd hstop (by decide)
      · intro hno
        exact absurd hocc hno
    · intro hno
      exact absurd hocc hno
  · subst h1 h2
    have hno : ¬ ∃ k, pattern <+: (buffer ++ chunk).drop k := by
      intro hocc
      obtain ⟨k, hk, hfirst⟩ := first_occurrence_exists _ _ hocc
      obtain ⟨events, he, _⟩ := sync_loop_first_occurrence pattern hp
        ((buffer ++ chunk).length + 1) (buffer ++ chunk) k (by omega) hk hfirst
      rw [hloop] at he
      simp at he
    refine ⟨_, read_data_stop _ chain fuel _ chunk extra _ Sym.STOP hsync rfl hc, ?_, ?_⟩
    · constructor
      · intro _
        exact hno
      · intro _
        rfl
    · intro _
      have hpos : 0 < chunk.length := List.length_pos.2 hc
      refine ⟨rfl, ?_, rfl, ?_, rfl, hrest, hcount, rfl⟩
      · simp [raw_payload, hsync, hpos]
      · simp only
        rw [hrest]
        exact List.drop_suffix _ _

/-- C13, witness: the pattern "AB", the buffer "XA" and the chunk "C". -/
theorem nonprobe_stop_iff_pattern_absent_witness :
    read_data (E := Nat) ⟨some [65, 66], 0⟩ terminal_stage 1
        ⟨[88, 65], none, SyncState.SEARCHING⟩ [67] none
      = some ⟨Outcome.symbol Sym.STOP, ⟨[67], none, SyncState.SEARCHING⟩,
          [(2, false)], []⟩
    ∧ ∃ r, read_data (E := Nat) ⟨some [65, 66], 0⟩ terminal_stage (0 + 1)
          ⟨[88, 65], none, SyncState.SEARCHING⟩ [67] none = some r
      ∧ (r.ret.is_stop = true ↔ ¬ ∃ k, [65, 66] <+: ([88, 65] ++ [67]).drop k)
      ∧ ((¬ ∃ k, [65, 66] <+: ([88, 65] ++ [67]).drop k) →
          r.ret = Outcome.symbol Sym.STOP
            ∧ raw_payload (E := Nat) ⟨some [65, 66], 0⟩
                ⟨[88, 65], none, SyncState.SEARCHING⟩ [67] none = []
            ∧ r.forwards = []
            ∧ r.state.data <:+ [88, 65] ++ [67]
            ∧ r.state.sync_state = SyncState.SEARCHING
            ∧ r.state.data = ([88, 65] ++ [67]).drop (discard_count r.discards)
            ∧ discard_count r.discards ≤ ([88, 65] ++ [67]).length
            ∧ r.state.extra = none) :=
  ⟨by decide,
   nonprobe_stop_iff_pattern_absent [65, 66] 0 terminal_stage 0 [88, 65] none [67] none
     (by decide) (by decide)⟩

/-- C15 (the sync state is `SEARCHING` at every read boundary): with a sync
pattern that is absent or not empty, from `SEARCHING`, every sequence of reads
returns and every read of it, whatever its chunk and its outcome, leaves the
state `SEARCHING`. -/
theorem sync_state_searching_after_every_read {E : Type} (cfg : Config)
    (chain : List Byte → Option E → Outcome E) (fuel : Nat) (st : State E)
    (calls : List (List Byte × Option E)) (hcfg : cfg.sync_pattern ≠ some [])
    (hs : st.sync_state = SyncState.SEARCHING) :
    ∃ rs, read_all cfg chain (fuel + 1) st calls = some rs
      ∧ rs.length = calls.length
      ∧ ∀ r ∈ rs, r.state.sync_state = SyncState.SEARCHING := by
  induction calls generalizing st with
  | nil => exact ⟨[], rfl, rfl, by simp⟩
  | cons call calls ih =>
    obtain ⟨data, extra⟩ := call
    obtain ⟨r, hr, hs2⟩ := read_data_keeps_searching cfg chain fuel st data extra hcfg hs
    obtain ⟨rs, hrs, hlen, hall⟩ := ih r.state hs2
    refine ⟨r :: rs, by simp [read_all, hr, hrs], by simp [hlen], ?_⟩
    intro r2 hmem
    rcases List.mem_cons.1 hmem with rfl | hmem
    · exact hs2
    · exact hall r2 hmem

/-- C15, witness: the pattern "AB" and the calls "XAB" (data after a match), a
probe, "A" (STOP) and a probe (data). -/
theorem sync_state_searching_after_every_read_witness :
    (read_all (E := Nat) ⟨some [65, 66], 0⟩ terminal_stage 1 initial_state
        [([88, 65, 66], none), ([], none), ([65], none), ([], none)]).map
      (fun rs => rs.map (fun r => (r.ret, r.state.sync_state)))
      = some [(Outcome.pair (PacketData.str [65, 66]) none, SyncState.SEARCHING),
          (Outcome.pair (PacketData.sym Sym.STOP) none, SyncState.SEARCHING),
          (Outcome.symbol Sym.STOP, SyncState.SEARCHING),
          (Outcome.pair (PacketData.str [65]) none, SyncState.SEARCHING)]
    ∧ ∃ rs, read_all (E := Nat) ⟨some [65, 66], 0⟩ terminal_stage (0 + 1) initial_state
          [([88, 65, 66], none), ([], none), ([65], none), ([], none)] = some rs
      ∧ rs.length
        = [([88, 65, 66], (none : Option Nat)), ([], none), ([65], none), ([], none)].length
      ∧ ∀ r ∈ rs, r.state.sync_state = SyncState.SEARCHING :=
  ⟨by decide,
   sync_state_searching_after_every_read ⟨some [65, 66], 0⟩ terminal_stage 0 initial_state
     [([88, 65, 66], none), ([], none), ([65], none), ([], none)] (by decide) rfl⟩

/-- A read over any extractor whose first turn reaches the extraction goes on
as that turn says. -/
theorem read_data_with_extract {E : Type} (cfg : Config)
    (reduce : State E → Reduced E × State E) (chain : List Byte → Option E → Outcome E)
    (fuel : Nat) (st : State E) (data : List Byte) (extra : Option E) (sync : SyncResult E)
    (hsync : handle_sync_pattern cfg (append_input st data extra) = some sync)
    (hgo : sync.control = none ∨ data = []) :
    read_data_with cfg reduce chain (fuel + 1) st data extra
      = match extract_turn cfg reduce chain data sync.state sync.discards with
        | Turn.again st2 log2 => read_loop cfg reduce chain data fuel st2 log2
        | Turn.done r => some r := by
  rcases hgo with hgo | hgo
  · simp only [read_data_with, read_loop, read_turn, hsync, hgo, List.nil_append]
    cases extract_turn cfg reduce chain data sync.state sync.discards <;> rfl
  · subst hgo
    cases hc : sync.control with
    | none =>
      simp only [read_data_with, read_loop, read_turn, hsync, hc, List.nil_append]
      cases extract_turn cfg reduce chain [] sync.state sync.discards <;> rfl
    | some s =>
      simp only [read_data_with, read_loop, read_turn, hsync, hc, List.length_nil,
        gt_iff_lt, lt_self_iff_false, if_false, List.nil_append]
      cases extract_turn cfg reduce chain [] sync.state sync.discards <;> rfl

/-- A turn of the loop that reaches the extraction, from any state and with
any discard events logged before, ends as the extraction says. -/
theorem read_turn_extract {E : Type} (cfg : Config)
    (reduce : State E → Reduced E × State E) (chain : List Byte → Option E → Outcome E)
    (data : List Byte) (st : State E) (log : List Discard) (sync : SyncResult E)
    (hsync : handle_sync_pattern cfg st = some sync)
    (hgo : sync.control = none ∨ data = []) :
    read_turn cfg reduce chain data st log
      = some (extract_turn cfg reduce chain data sync.state (log ++ sync.discards)) := by
  rcases hgo with hgo | hgo
  · simp only [read_turn, hsync, hgo]
  · subst hgo
    cases hc : sync.control with
    | none => simp only [read_turn, hsync, hc]
    | some s =>
      simp only [read_turn, hsync, hc, List.length_nil, gt_iff_lt, lt_self_iff_false,
        if_false]

/-- The loop with `n` turns of fuel more than `fuel`, whose first `n` turns
restart, goes on from the start of turn `n` with `fuel`. -/
theorem read_loop_turn_start {E : Type} (cfg : Config)
    (reduce : State E → Reduced E × State E) (chain : List Byte → Option E → Outcome E)
    (data : List Byte) (fuel n : Nat) (st : State E) (log : List Discard)
    (stn : State E) (logn : List Discard)
    (h : turn_start cfg reduce chain data n st log = some (stn, logn)) :
    read_loop cfg reduce chain data (fuel + n) st log
      = read_loop cfg reduce chain data fuel stn logn := by
  induction n generalizing st log with
  | zero =>
    simp only [turn_start, Option.some.injEq, Prod.mk.injEq] at h
    obtain ⟨h1, h2⟩ := h
    subst h1 h2
    rfl
  | succ n ih =>
    unfold turn_start at h
    rw [← Nat.add_assoc]
    conv_lhs => unfold read_loop
    cases ht : read_turn cfg reduce chain data st log with
    | none => simp [ht] at h
    | some t =>
      cases t with
      | again st2 log2 =>
        simp only [ht] at h
        exact ih st2 log2 h
      | done r => simp [ht] at h

/-- A restart at the end of turn `n` is the start of turn `n + 1`. -/
theorem turn_start_succ {E : Type} (cfg : Config)
    (reduce : State E → Reduced E × State E) (chain : List Byte → Option E → Outcome E)
    (data : List Byte) (n : Nat) (st : State E) (log : List Discard)
    (stn : State E) (logn : List Discard) (st2 : State E) (log2 : List Discard)
    (h : turn_start cfg reduce chain data n st log = some (stn, logn))
    (ht : read_turn cfg reduce chain data stn logn = some (Turn.again st2 log2)) :
    turn_start cfg reduce chain data (n + 1) st log = some (st2, log2) := by
  induction n generalizing st log with
  | zero =>
    simp only [turn_start, Option.some.injEq, Prod.mk.injEq] at h
    obtain ⟨h1, h2⟩ := h
    subst h1 h2
    simp [turn_start, ht]
  | succ n ih =>
    unfold turn_start at h
    conv_lhs => unfold turn_start
    cases hr : read_turn cfg reduce chain data st log with
    | none => simp [hr] at h
    | some t =>
      cases t with
      | again st3 log3 =>
        simp only [hr] at h
        exact ih st3 log3 h
      | done r => simp [hr] at h

/-- What the extraction does with a marker, on any turn: the loop restarts
for `:RESYNC` with a non-empty chunk, the call is passed on for an empty chunk
unless the marker is `:DISCONNECT`, and the pair is returned otherwise. -/
theorem extract_turn_marker {E : Type} (cfg : Config)
    (reduce : State E → Reduced E × State E) (chain : List Byte → Option E → Outcome E)
    (chunk : List Byte) (st : State E) (log : List Discard) (m : Sym) (x : Option E)
    (hred : unpack_result (reduce st).1 = (PacketData.sym m, x)) :
    extract_turn cfg reduce chain chunk st log
      = if m = Sym.RESYNC ∧ chunk ≠ [] then
          Turn.again ⟨(reduce st).2.data, (reduce st).2.extra, SyncState.SEARCHING⟩ log
        else
          Turn.done
            ⟨if chunk = [] ∧ m ≠ Sym.DISCONNECT then chain chunk x
              else Outcome.pair (PacketData.sym m) x,
             if m = Sym.RESYNC then
               ⟨(reduce st).2.data, (reduce st).2.extra, SyncState.SEARCHING⟩
             else (reduce st).2,
             log,
             if chunk = [] ∧ m ≠ Sym.DISCONNECT then [(chunk, x)] else []⟩ := by
  have h1 : (unpack_result (reduce st).1).1 = PacketData.sym m := by rw [hred]
  have h2 : (unpack_result (reduce st).1).2 = x := by rw [hred]
  by_cases hch : chunk = []
  · subst hch
    by_cases hd : m = Sym.DISCONNECT
    · subst hd
      simp [extract_turn, h1, h2]
    · simp [extract_turn, h1, h2, hd]
  · have hpos : 0 < chunk.length := List.length_pos.2 hch
    by_cases hm : m = Sym.RESYNC
    · subst hm
      simp [extract_turn, h1, hpos, hch]
    · simp [extract_turn, h1, h2, hm, hch]

/-- C19 (marker dispatch): over any extractor and on any turn of the loop of a
read (turn `n`, reached after `n` restarts), when the extraction yields the
marker `m` and the loop does not restart (it restarts only for `:RESYNC` with a
non-empty chunk), the read returns: the call is passed to the next stage
exactly when the chunk is empty and `m` is not `:DISCONNECT`, and then the next
stage's value is returned; otherwise the pair of `m` and the working extra is
returned.  `:DISCONNECT` is never passed on, and `:RESYNC` sets the sync state
to `SEARCHING`.  For `:RESYNC` with a non-empty chunk the read does not return
on this turn: it goes on with turn `n + 1` from the extractor's state with the
sync state `SEARCHING`, and is whatever the loop makes of that. -/
theorem marker_dispatch_rule {E : Type} (cfg : Config)
    (reduce : State E → Reduced E × State E) (chain : List Byte → Option E → Outcome E)
    (fuel n : Nat) (st : State E) (chunk : List Byte) (extra : Option E)
    (stn : State E) (logn : List Discard)
    (sync : SyncResult E) (m : Sym) (x : Option E)
    (hturn : turn_start cfg reduce chain chunk n (append_input st chunk extra) []
      = some (stn, logn))
    (hsync : handle_sync_pattern cfg stn = some sync)
    (hgo : sync.control = none ∨ chunk = [])
    (hred : unpack_result (reduce sync.state).1 = (PacketData.sym m, x)) :
    (¬ (m = Sym.RESYNC ∧ chunk ≠ []) →
      ∃ r, read_data_with cfg reduce chain (fuel + 1 + n) st chunk extra = some r
        ∧ (r.forwards ≠ [] ↔ (chunk = [] ∧ m ≠ Sym.DISCONNECT))
        ∧ ((chunk = [] ∧ m ≠ Sym.DISCONNECT) →
            r.forwards = [(chunk, x)] ∧ r.ret = chain chunk x)
        ∧ (¬ (chunk = [] ∧ m ≠ Sym.DISCONNECT) →
            r.forwards = [] ∧ r.ret = Outcome.pair (PacketData.sym m) x)
        ∧ (m = Sym.RESYNC → r.state.sync_state = SyncState.SEARCHING)
        ∧ (m ≠ Sym.RESYNC → r.state = (reduce sync.state).2)
        ∧ r.state.data = (reduce sync.state).2.data
        ∧ r.state.extra = (reduce sync.state).2.extra
        ∧ r.discards = logn ++ sync.discards)
    ∧ (m = Sym.RESYNC → chunk ≠ [] →
        extract_turn cfg reduce chain chunk sync.state (logn ++ sync.discards)
          = Turn.again ⟨(reduce sync.state).2.data, (reduce sync.state).2.extra,
              SyncState.SEARCHING⟩ (logn ++ sync.discards)
        ∧ turn_start cfg reduce chain chunk (n + 1) (append_input st chunk extra) []
          = some (⟨(reduce sync.state).2.data, (reduce sync.state).2.extra,
              SyncState.SEARCHING⟩, logn ++ sync.discards)
        ∧ read_data_with cfg reduce chain (fuel + 1 + n) st chunk extra
          = read_loop cfg reduce chain chunk fuel
              ⟨(reduce sync.state).2.data, (reduce sync.state).2.extra,
                SyncState.SEARCHING⟩ (logn ++ sync.discards)) := by
  have hread : read_data_with cfg reduce chain (fuel + 1 + n) st chunk extra
      = read_loop cfg reduce chain chunk (fuel + 1) stn logn :=
    read_loop_turn_start cfg reduce chain chunk (fuel + 1) n _ _ stn logn hturn
  have hrt := read_turn_extract cfg reduce chain chunk stn logn sync hsync hgo
  have hext := extract_turn_marker cfg reduce chain chunk sync.state
    (logn ++ sync.discards) m x hred
  constructor
  · intro hnr
    rw [if_neg hnr] at hext
    rw [hext] at hrt
    have hres : read_data_with cfg reduce chain (fuel + 1 + n) st chunk extra
        = some ⟨if chunk = [] ∧ m ≠ Sym.DISCONNECT then chain chunk x
              else Outcome.pair (PacketData.sym m) x,
             if m = Sym.RESYNC then
               ⟨(reduce sync.state).2.data, (reduce sync.state).2.extra,
                 SyncState.SEARCHING⟩
             else (reduce sync.state).2,
             logn ++ sync.discards,
             if chunk = [] ∧ m ≠ Sym.DISCONNECT then [(chunk, x)] else []⟩ := by
      rw [hread]
      conv_lhs => unfold read_loop
      rw [hrt]
    refine ⟨_, hres, ?_, ?_, ?_, ?_, ?_, ?_, ?_, rfl⟩
    · by_cases hc : chunk = [] ∧ m ≠ Sym.DISCONNECT
      · simp [hc]
      · simp [hc]
    · intro hc
      simp [hc]
    · intro hc
      simp [hc]
    · intro hm
      simp [hm]
    · intro hm
      simp [hm]
    · by_cases hm : m = Sym.RESYNC
      · simp [hm]
      · simp [hm]
    · by_cases hm : m = Sym.RESYNC
      · simp [hm]
      · simp [hm]
  · intro hm hch
    rw [if_pos ⟨hm, hch⟩] at hext
    rw [hext] at hrt
    refine ⟨hext, turn_start_succ cfg reduce chain chunk n _ _ stn logn _ _ hturn hrt, ?_⟩
    rw [hread]
    conv_lhs => unfold read_loop
    rw [hrt]

/-- C19, witness: an extractor that yields `:RESYNC` in the state `FOUND` and
`:DISCONNECT` otherwise, read with the chunk "X" from `FOUND`.  Turn 0 restarts
the loop from `SEARCHING`; turn 1 yields `:DISCONNECT`, which the read returns
without passing the call on. -/
theorem marker_dispatch_rule_witness :
    read_data_with (E := Nat) ⟨none, 0⟩
        (fun st => if st.sync_state = SyncState.FOUND
          then (Reduced.bare (PacketData.sym Sym.RESYNC), st)
          else (Reduced.bare (PacketData.sym Sym.DISCONNECT), st)) terminal_stage 2
        ⟨[], none, SyncState.FOUND⟩ [88] none
      = some ⟨Outcome.pair (PacketData.sym Sym.DISCONNECT) none,
          ⟨[88], none, SyncState.SEARCHING⟩, [], []⟩
    ∧ turn_start (E := Nat) ⟨none, 0⟩
        (fun st => if st.sync_state = SyncState.FOUND
          then (Reduced.bare (PacketData.sym Sym.RESYNC), st)
          else (Reduced.bare (PacketData.sym Sym.DISCONNECT), st)) terminal_stage [88] 1
        (append_input ⟨[], none, SyncState.FOUND⟩ [88] none) []
      = some (⟨[88], none, SyncState.SEARCHING⟩, [])
    ∧ ∃ r, read_data_with (E := Nat) ⟨none, 0⟩
        (fun st => if st.sync_state = SyncState.FOUND
          then (Reduced.bare (PacketData.sym Sym.RESYNC), st)
          else (Reduced.bare (PacketData.sym Sym.DISCONNECT), st)) terminal_stage (0 + 1 + 1)
        ⟨[], none, SyncState.FOUND⟩ [88] none = some r
      ∧ (r.forwards ≠ [] ↔ (([88] : List Byte) = [] ∧ Sym.DISCONNECT ≠ Sym.DISCONNECT))
      ∧ ((([88] : List Byte) = [] ∧ Sym.DISCONNECT ≠ Sym.DISCONNECT) →
          r.forwards = [([88], none)] ∧ r.ret = terminal_stage [88] none)
      ∧ (¬ (([88] : List Byte) = [] ∧ Sym.DISCONNECT ≠ Sym.DISCONNECT) →
          r.forwards = [] ∧ r.ret = Outcome.pair (PacketData.sym Sym.DISCONNECT) none)
      ∧ (Sym.DISCONNECT = Sym.RESYNC → r.state.sync_state = SyncState.SEARCHING)
      ∧ (Sym.DISCONNECT ≠ Sym.RESYNC → r.state = ⟨[88], none, SyncState.SEARCHING⟩)
      ∧ r.state.data = [88]
      ∧ r.state.extra = none
      ∧ r.discards = [] :=
  ⟨by decide, by decide,
   (marker_dispatch_rule (E := Nat) ⟨none, 0⟩
      (fun st => if st.sync_state = SyncState.FOUND
        then (Reduced.bare (PacketData.sym Sym.RESYNC), st)
        else (Reduced.bare (PacketData.sym Sym.DISCONNECT), st)) terminal_stage 0 1
      ⟨[], none, SyncState.FOUND⟩ [88] none ⟨[88], none, SyncState.SEARCHING⟩ []
      ⟨none, ⟨[88], none, SyncState.SEARCHING⟩, []⟩
      Sym.DISCONNECT none (by decide) (by decide) (Or.inl rfl) rfl).1 (by decide)⟩

/-! ## Sync recovery over a stream cut into chunks -/

/-- Where the pattern occurs, the stream holds the first pattern byte. -/
theorem occurrence_head (p0 : Byte) (ps stream : List Byte) (k : Nat)
    (h : (p0 :: ps) <+: stream.drop k) : stream[k]? = some p0 := by
  obtain ⟨t, ht⟩ := h
  rw [← List.head?_drop, ← ht]
  rfl

/-- An occurrence of the pattern in the buffer is one in the buffer followed
by what arrives later. -/
theorem occurrence_extends (pattern data future : List Byte) (j : Nat)
    (h : pattern <+: data.drop j) (hp : pattern ≠ []) :
    pattern <+: (data ++ future).drop j := by
  have hj : j ≤ data.length := by
    by_contra hgt
    rw [List.drop_eq_nil_of_le (by omega)] at h
    exact hp (List.prefix_nil.1 h)
  rw [List.drop_append_of_le_length hj]
  exact h.trans (List.prefix_append _ _)

/-- The sync loop discards no byte at or after an occurrence of the pattern,
also one that is completed only by bytes that arrive later. -/
theorem sync_loop_discards_before (pattern : List Byte) (hp : pattern ≠ [])
    (fuel : Nat) (data future : List Byte) (k : Nat)
    (control : Option Sym) (rest : List Byte) (events : List Discard) (found : Bool)
    (h : sync_loop pattern fuel data = some (control, rest, events, found))
    (hocc : pattern <+: (data ++ future).drop k) :
    discard_count events ≤ k := by
  induction fuel generalizing data k control rest events found with
  | zero => simp [sync_loop] at h
  | succ fuel ih =>
    obtain ⟨p0, ps, rfl⟩ := List.exists_cons_of_ne_nil hp
    have hhead := occurrence_head p0 ps _ k hocc
    unfold sync_loop at h
    split at h
    · simp at h
      obtain ⟨_, _, h3, _⟩ := h
      subst h3
      simp [discard_count]
    · split at h
      · rename_i i hi
        simp only [List.headD_cons] at hi
        obtain ⟨pre, post, h1, h2, h3⟩ := find_sync_index_some p0 data i hi
        have hlt := find_sync_index_lt _ _ _ hi
        have hik : i ≤ k := by
          by_contra hgt
          have hk2 : (data ++ future)[k]? = some (pre[k]) := by
            rw [h1, List.append_assoc, List.getElem?_append_left (by omega),
              List.getElem?_eq_getElem]
          rw [hhead] at hk2
          exact h3 _ (List.getElem_mem _) (Option.some.inj hk2).symm
        split at h
        · simp at h
          obtain ⟨_, _, h3, _⟩ := h
          subst h3
          simp [discard_count]
        · rename_i hlen
          split at h
          · split at h
            · simp at h
              obtain ⟨_, _, h3, _⟩ := h
              subst h3
              simpa [discard_count] using hik
            · simp at h
              obtain ⟨_, _, h3, _⟩ := h
              subst h3
              simp [discard_count]
          · rename_i hnf
            have hne : i ≠ k := by
              intro e
              subst e
              apply hnf
              rw [sync_found_iff]
              rw [List.drop_append_of_le_length (by omega)] at hocc
              refine List.prefix_of_prefix_length_le hocc (List.prefix_append _ _) ?_
              simp only [List.length_drop, List.length_cons] at hlen ⊢
              omega
            split at h
            · rename_i c r ev f hrec
              simp at h
              obtain ⟨_, _, h3, _⟩ := h
              subst h3
              have hrecocc : (p0 :: ps) <+:
                  (data.drop (i + 1) ++ future).drop (k - (i + 1)) := by
                rw [← List.drop_append_of_le_length (by omega), List.drop_drop]
                have : i + 1 + (k - (i + 1)) = k := by omega
                rw [this]
                exact hocc
              have := ih _ _ _ _ _ _ hrec hrecocc
              simp only [discard_count, List.map_cons, List.sum_cons] at this ⊢
              omega
            · simp at h
      · rename_i hnone
        simp only [List.headD_cons] at hnone
        simp at h
        obtain ⟨_, _, h3, _⟩ := h
        subst h3
        simp only [discard_count, List.map_cons, List.map_nil, List.sum_cons, List.sum_nil,
          Nat.add_zero]
        by_contra hgt
        have hk2 : (data ++ future)[k]? = some (data[k]) := by
          rw [List.getElem?_append_left (by omega), List.getElem?_eq_getElem]
        rw [hhead] at hk2
        exact (find_sync_index_none p0 data).1 hnone _ (List.getElem_mem _)
          (Option.some.inj hk2).symm

/-- A read that completes the first occurrence of the pattern returns the
buffer from that occurrence on. -/
theorem read_data_first_occurrence {E : Type} (pattern : List Byte)
    (chain : List Byte → Option E → Outcome E) (fuel : Nat) (buffer : List Byte)
    (stored : Option E) (chunk : List Byte) (extra : Option E) (k : Nat)
    (hp : pattern ≠ []) (hc : chunk ≠ [])
    (hocc : pattern <+: (buffer ++ chunk).drop k)
    (hfirst : ∀ j, j < k → ¬ pattern <+: (buffer ++ chunk).drop j) :
    ∃ events, read_data ⟨some pattern, 0⟩ chain (fuel + 1)
          ⟨buffer, stored, SyncState.SEARCHING⟩ chunk extra
        = some ⟨Outcome.pair (PacketData.str ((buffer ++ chunk).drop k)) extra,
            ⟨[], extra, SyncState.SEARCHING⟩, events, []⟩
      ∧ discard_count events = k := by
  obtain ⟨events, hloop, hsum⟩ := sync_loop_first_occurrence pattern hp
    ((buffer ++ chunk).length + 1) (buffer ++ chunk) k (by omega) hocc hfirst
  have hsync : handle_sync_pattern ⟨some pattern, 0⟩
      (append_input ⟨buffer, stored, SyncState.SEARCHING⟩ chunk extra)
      = some ⟨none, ⟨(buffer ++ chunk).drop k, extra, SyncState.FOUND⟩, events⟩ := by
    rw [append_input_chunk _ _ _ hc]
    exact handle_sync_pattern_searching pattern 0 (buffer ++ chunk) extra _ _ _ _ hloop
  have hne : (buffer ++ chunk).drop k ≠ [] := by
    intro h
    rw [h] at hocc
    exact hp (List.prefix_nil.1 hocc)
  refine ⟨events, ?_, hsum⟩
  rw [read_data_packet _ chain fuel _ chunk extra _ hsync (Or.inl rfl) hne,
    discard_leading_within ⟨some pattern, 0⟩ _ _ 0 rfl (Nat.zero_le _)]
  rfl

/-- A read that does not yet complete the first occurrence of the pattern
returns `:STOP` and discards only bytes before that occurrence. -/
theorem read_data_before_occurrence {E : Type} (pattern : List Byte)
    (chain : List Byte → Option E → Outcome E) (fuel : Nat) (buffer : List Byte)
    (stored : Option E) (chunk : List Byte) (extra : Option E) (future : List Byte) (k : Nat)
    (hp : pattern ≠ []) (hc : chunk ≠ [])
    (hocc : pattern <+: (buffer ++ chunk ++ future).drop k)
    (hfirst : ∀ j, j < k → ¬ pattern <+: (buffer ++ chunk ++ future).drop j)
    (hshort : (buffer ++ chunk).length < k + pattern.length) :
    ∃ events, read_data ⟨some pattern, 0⟩ chain (fuel + 1)
          ⟨buffer, stored, SyncState.SEARCHING⟩ chunk extra
        = some ⟨Outcome.symbol Sym.STOP,
            ⟨(buffer ++ chunk).drop (discard_count events), extra, SyncState.SEARCHING⟩,
            events, []⟩
      ∧ discard_count events ≤ k
      ∧ discard_count events ≤ (buffer ++ chunk).length := by
  obtain ⟨⟨c, rest, ev, f⟩, hloop⟩ := sync_loop_total pattern
    ((buffer ++ chunk).length + 1) (buffer ++ chunk) (by omega)
  obtain ⟨hle, hrest⟩ := sync_loop_suffix _ _ _ _ _ _ _ hloop
  have hbefore := sync_loop_discards_before pattern hp _ _ future k _ _ _ _ hloop hocc
  have hsync : handle_sync_pattern ⟨some pattern, 0⟩
      (append_input ⟨buffer, stored, SyncState.SEARCHING⟩ chunk extra)
      = some ⟨c, ⟨rest, extra, if f then SyncState.FOUND else SyncState.SEARCHING⟩, ev⟩ := by
    rw [append_input_chunk _ _ _ hc]
    exact handle_sync_pattern_searching pattern 0 (buffer ++ chunk) extra _ _ _ _ hloop
  rcases sync_loop_outcome _ _ _ _ _ _ _ hloop with ⟨_, _, h3⟩ | ⟨h1, h2⟩
  · exfalso
    rw [hrest] at h3
    have hlen := h3.length_le
    simp only [List.length_drop] at hlen
    have hpos : 0 < pattern.length := List.length_pos.2 hp
    exact hfirst (discard_count ev) (by omega) (occurrence_extends _ _ _ _ h3 hp)
  · subst h1 h2
    refine ⟨ev, ?_, hbefore, hle⟩
    rw [read_data_stop _ chain fuel _ chunk extra _ Sym.STOP hsync rfl hc, hrest]
    rfl

theorem stream_of_append {E : Type} (a b : List (List Byte × Option E)) :
    stream_of (a ++ b) = stream_of a ++ stream_of b := by
  induction a with
  | nil => rfl
  | cons call a ih =>
    obtain ⟨data, extra⟩ := call
    simp [stream_of, ih]

/-- Reads of non-empty chunks up to the one that completes the first
occurrence of the pattern: all but the last return `:STOP` and discard only
bytes before the occurrence, the last returns the stream from the occurrence
on. -/
theorem read_all_until_occurrence {E : Type} (pattern : List Byte)
    (chain : List Byte → Option E → Outcome E) (fuel : Nat) (hp : pattern ≠ [])
    (pre : List (List Byte × Option E)) (buffer : List Byte) (stored : Option E)
    (c : List Byte) (e : Option E) (k : Nat)
    (hpre : ∀ call ∈ pre, call.1 ≠ []) (hc : c ≠ [])
    (hocc : pattern <+: (buffer ++ stream_of pre ++ c).drop k)
    (hfirst : ∀ j, j < k → ¬ pattern <+: (buffer ++ stream_of pre ++ c).drop j)
    (hshort : pre ≠ [] → (buffer ++ stream_of pre).length < k + pattern.length) :
    ∃ rs r, read_all ⟨some pattern, 0⟩ chain (fuel + 1)
          ⟨buffer, stored, SyncState.SEARCHING⟩ (pre ++ [(c, e)]) = some (rs ++ [r])
      ∧ rs.length = pre.length
      ∧ (∀ r2 ∈ rs, r2.ret = Outcome.symbol Sym.STOP)
      ∧ discard_total rs ≤ k
      ∧ discard_total rs ≤ (buffer ++ stream_of pre).length
      ∧ (state_after ⟨buffer, stored, SyncState.SEARCHING⟩ rs).data
          = (buffer ++ stream_of pre).drop (discard_total rs)
      ∧ r.ret = Outcome.pair (PacketData.str ((buffer ++ stream_of pre ++ c).drop k)) e := by
  induction pre generalizing buffer stored k with
  | nil =>
    simp only [stream_of, List.append_nil] at hocc hfirst ⊢
    obtain ⟨events, hr, _⟩ := read_data_first_occurrence pattern chain fuel buffer stored
      c e k hp hc hocc hfirst
    refine ⟨[], ⟨Outcome.pair (PacketData.str ((buffer ++ c).drop k)) e,
      ⟨[], e, SyncState.SEARCHING⟩, events, []⟩, ?_, rfl, by simp, by simp [discard_total],
      by simp [discard_total], by simp [state_after, discard_total], rfl⟩
    simp [read_all, hr]
  | cons call pre ih =>
    obtain ⟨c1, e1⟩ := call
    have hc1 : c1 ≠ [] := hpre (c1, e1) (List.mem_cons_self _ _)
    have hshort1 := hshort (List.cons_ne_nil _ _)
    simp only [stream_of] at hocc hfirst hshort1 ⊢
    have hfull : buffer ++ (c1 ++ stream_of pre) ++ c
        = buffer ++ c1 ++ (stream_of pre ++ c) := by simp
    rw [hfull] at hocc hfirst
    obtain ⟨events, hr1, hk1, hl1⟩ := read_data_before_occurrence pattern chain fuel buffer
      stored c1 e1 (stream_of pre ++ c) k hp hc1 hocc hfirst
      (by simp only [List.length_append] at hshort1 ⊢; omega)
    have hdrop : (buffer ++ c1).drop (discard_count events) ++ stream_of pre ++ c
        = (buffer ++ c1 ++ (stream_of pre ++ c)).drop (discard_count events) := by
      rw [List.drop_append_of_le_length hl1]
      simp
    obtain ⟨rs, r, hrs, hlen, hstop, hd1, hd2, hst, hret⟩ :=
      ih ((buffer ++ c1).drop (discard_count events)) e1 (k - discard_count events)
        (fun call hmem => hpre call (List.mem_cons_of_mem _ hmem))
        (by rw [hdrop, List.drop_drop]
            have : discard_count events + (k - discard_count events) = k := by omega
            rw [this]
            exact hocc)
        (by intro j hj
            rw [hdrop, List.drop_drop]
            exact hfirst _ (by omega))
        (by intro _
            simp only [List.length_append, List.length_drop] at hshort1 hl1 ⊢
            omega)
    refine ⟨⟨Outcome.symbol Sym.STOP,
      ⟨(buffer ++ c1).drop (discard_count events), e1, SyncState.SEARCHING⟩, events, []⟩ :: rs,
      r, ?_, by simp [hlen], ?_, ?_, ?_, ?_, ?_⟩
    · rw [List.cons_append]
      simp only [read_all, hr1, hrs, List.cons_append]
    · intro r2 hmem
      rcases List.mem_cons.1 hmem with rfl | hmem
      · rfl
      · exact hstop r2 hmem
    · simp only [discard_total]
      omega
    · simp only [discard_total, List.length_append, List.length_drop] at hd2 hl1 ⊢
      omega
    · simp only [state_after, discard_total]
      rw [hst, ← List.append_assoc, ← List.drop_append_of_le_length hl1, List.drop_drop,
        List.append_assoc]
    · rw [hret, hdrop, List.drop_drop, hfull]
      have : discard_count events + (k - discard_count events) = k := by omega
      rw [this]

/-- C20 (sync recovery is independent of fragmentation): with a non-empty sync
pattern and no leading discard, let the pattern first occur at index `k` of a
stream cut into non-empty chunks, and let `c` be the first chunk with which
the stream so far reaches `k + length pattern`.  Fed from the initial state,
every read before `c` returns `:STOP`, together they discard exactly the first
bytes of the stream, at most `k` of them (no byte at index `k` or later), and
the read of `c` returns as data the stream up to `c` without its first `k`
bytes. -/
theorem sync_recovery_independent_of_fragmentation {E : Type} (pattern : List Byte)
    (chain : List Byte → Option E → Outcome E) (fuel : Nat)
    (pre : List (List Byte × Option E)) (c : List Byte) (e : Option E)
    (post : List (List Byte × Option E)) (k : Nat)
    (hp : pattern ≠ []) (hpre : ∀ call ∈ pre, call.1 ≠ []) (hc : c ≠ [])
    (hocc : pattern <+: (stream_of (pre ++ (c, e) :: post)).drop k)
    (hfirst : ∀ j, j < k → ¬ pattern <+: (stream_of (pre ++ (c, e) :: post)).drop j)
    (hbefore : (stream_of pre).length < k + pattern.length)
    (hreach : k + pattern.length ≤ (stream_of pre ++ c).length) :
    ∃ rs r, read_all ⟨some pattern, 0⟩ chain (fuel + 1) initial_state (pre ++ [(c, e)])
          = some (rs ++ [r])
      ∧ rs.length = pre.length
      ∧ (∀ r2 ∈ rs, r2.ret = Outcome.symbol Sym.STOP)
      ∧ discard_total rs ≤ k
      ∧ (state_after initial_state rs).data = (stream_of pre).drop (discard_total rs)
      ∧ r.ret = Outcome.pair (PacketData.str ((stream_of pre ++ c).drop k)) e := by
  have hstream : stream_of (pre ++ (c, e) :: post)
      = (stream_of pre ++ c) ++ stream_of post := by
    rw [stream_of_append]
    simp [stream_of]
  rw [hstream] at hocc hfirst
  have hk : k ≤ (stream_of pre ++ c).length := by omega
  have hocc2 : pattern <+: ([] ++ stream_of pre ++ c).drop k := by
    rw [List.drop_append_of_le_length hk] at hocc
    rw [List.nil_append]
    refine List.prefix_of_prefix_length_le hocc (List.prefix_append _ _) ?_
    simp only [List.length_drop]
    omega
  have hfirst2 : ∀ j, j < k → ¬ pattern <+: ([] ++ stream_of pre ++ c).drop j := by
    intro j hj hpre2
    rw [List.nil_append] at hpre2
    exact hfirst j hj (occurrence_extends _ _ _ _ hpre2 hp)
  obtain ⟨rs, r, h1, h2, h3, h4, _, h6, h7⟩ := read_all_until_occurrence pattern chain fuel hp
    pre [] none c e k hpre hc hocc2 hfirst2 (fun _ => by simpa using hbefore)
  rw [List.nil_append] at h6 h7
  exact ⟨rs, r, h1, h2, h3, h4, h6, h7⟩

/-- C20, witness: the pattern "AB" in the stream "XYAABCD" (first at index 3),
cut into "XY", "AA", "BC", "D": the first two reads return `:STOP` and discard
the three bytes "XYA", the third returns "ABC". -/
theorem sync_recovery_independent_of_fragmentation_witness :
    (read_all (E := Nat) ⟨some [65, 66], 0⟩ terminal_stage 1 initial_state
        [([88, 89], none), ([65, 65], none), ([66, 67], some 1)]).map
      (fun rs => rs.map (fun r => (r.ret, r.discards)))
      = some [(Outcome.symbol Sym.STOP, [(2, false)]),
          (Outcome.symbol Sym.STOP, [(1, false)]),
          (Outcome.pair (PacketData.str [65, 66, 67]) (some 1), [])]
    ∧ ∃ rs r, read_all (E := Nat) ⟨some [65, 66], 0⟩ terminal_stage (0 + 1) initial_state
          ([([88, 89], none), ([65, 65], none)] ++ [([66, 67], some 1)]) = some (rs ++ [r])
      ∧ rs.length = [([88, 89], (none : Option Nat)), ([65, 65], none)].length
      ∧ (∀ r2 ∈ rs, r2.ret = Outcome.symbol Sym.STOP)
      ∧ discard_total rs ≤ 3
      ∧ (state_after initial_state rs).data
          = (stream_of [([88, 89], (none : Option Nat)), ([65, 65], none)]).drop
              (discard_total rs)
      ∧ r.ret = Outcome.pair (PacketData.str
          ((stream_of [([88, 89], (none : Option Nat)), ([65, 65], none)] ++ [66, 67]).drop 3))
          (some 1) :=
  ⟨by decide,
   sync_recovery_independent_of_fragmentation [65, 66] terminal_stage 0
     [([88, 89], none), ([65, 65], none)] [66, 67] (some 1) [([68], none)] 3
     (by decide) (by decide) (by decide) (by decide) (by decide) (by decide) (by decide)⟩

end BurstProtocol

namespace ConfigParser

/-- C12 (remove_quotes): a string of at least two bytes whose first byte is a
double quote (34) or a single quote (39) and whose last byte equals the first
loses its first and its last byte (two bytes shorter); every other string is
returned unchanged. -/
theorem remove_quotes_strips_matching_pair (s : List Nat) :
    (∀ q, 2 ≤ s.length → s.head? = some q → (q = 34 ∨ q = 39) → s.getLast? = some q →
        string_remove_quotes s = s.tail.dropLast
          ∧ (string_remove_quotes s).length = s.length - 2)
    ∧ ((s.length < 2 ∨ (s.head? ≠ some 34 ∧ s.head? ≠ some 39) ∨ s.getLast? ≠ s.head?) →
        string_remove_quotes s = s) := by
  have hfirst : ∀ (h : 0 < s.length), s.head? = some (s.getD 0 0) := by
    intro h
    cases s with
    | nil => simp at h
    | cons a t => simp
  have hlast : ∀ (h : 0 < s.length), s.getLast? = some (s.getD (s.length - 1) 0) := by
    intro h
    rw [List.getLast?_eq_getElem?, List.getD_eq_getElem?_getD]
    rw [List.getElem?_eq_getElem (by omega)]
    simp
  constructor
  · intro q hlen hq hquote hl
    have h1 := hfirst (by omega)
    have h2 := hlast (by omega)
    rw [hq] at h1
    rw [hl] at h2
    have e1 : s.getD 0 0 = q := (Option.some.inj h1).symm
    have e2 : s.getD (s.length - 1) 0 = q := (Option.some.inj h2).symm
    have hres : string_remove_quotes s = (s.drop 1).take (s.length - 2) := by
      unfold string_remove_quotes
      have hn : ¬ s.length < 2 := by omega
      simp only [hn, if_false, e1, e2]
      rcases hquote with rfl | rfl <;> simp
    have hshape : (s.drop 1).take (s.length - 2) = s.tail.dropLast := by
      rw [List.dropLast_eq_take, List.length_tail, ← List.drop_one]
      have : s.length - 1 - 1 = s.length - 2 := by omega
      rw [this]
    refine ⟨hres.trans hshape, ?_⟩
    rw [hres]
    simp
    omega
  · intro h
    unfold string_remove_quotes
    by_cases hn : s.length < 2
    · simp [hn]
    · simp only [hn, if_false]
      have h1 := hfirst (by omega)
      have h2 := hlast (by omega)
      rcases h with h | h | h
      · exact absurd h hn
      · rw [h1] at h
        have a1 : s.getD 0 0 ≠ 34 := fun e => h.1 (by rw [e])
        have a2 : s.getD 0 0 ≠ 39 := fun e => h.2 (by rw [e])
        rw [if_pos ⟨a1, a2⟩]
      · rw [h1, h2] at h
        have a3 : s.getD (s.length - 1) 0 ≠ s.getD 0 0 := fun e => h (by rw [e])
        by_cases hq : s.getD 0 0 ≠ 34 ∧ s.getD 0 0 ≠ 39
        · rw [if_pos hq]
        · rw [if_neg hq, if_pos a3]

/-- C12, witness: `'quoted string'` in single quotes gives `quoted string`. -/
theorem remove_quotes_strips_matching_pair_witness :
    string_remove_quotes
        [39, 113, 117, 111, 116, 101, 100, 32, 115, 116, 114, 105, 110, 103, 39]
      = [113, 117, 111, 116, 101, 100, 32, 115, 116, 114, 105, 110, 103]
    ∧ string_remove_quotes
        [39, 113, 117, 111, 116, 101, 100, 32, 115, 116, 114, 105, 110, 103, 39]
      = ([39, 113, 117, 111, 116, 101, 100, 32, 115, 116, 114, 105, 110, 103, 39] :
          List Nat).tail.dropLast :=
  ⟨by decide,
   ((remove_quotes_strips_matching_pair
      [39, 113, 117, 111, 116, 101, 100, 32, 115, 116, 114, 105, 110, 103, 39]).1 39
      (by decide) (by decide) (by decide) (by decide)).1⟩

/-! ## One logical line of `parse_loop` -/

theorem c_string_of_text (s : List Nat) (h : 0 ∉ s) : c_string s = s := by
  unfold c_string
  rw [List.takeWhile_eq_self_iff]
  intro b hb
  have : b ≠ 0 := fun e => h (e ▸ hb)
  simpa using this

/-- The parameter loop stops exactly at a token that starts with `#` and whose
second byte is not `{`. -/
theorem trailing_comment_iff (t : List Nat) :
    trailing_comment t = true ↔ t.head? = some 35 ∧ t[1]? ≠ some 123 := by
  cases t with
  | nil => simp [trailing_comment]
  | cons a rest =>
    cases rest with
    | nil => simp [trailing_comment]
    | cons b rest2 => simp [trailing_comment]

/-- The parameter loop keeps the longest run of leading tokens that holds no
trailing comment, each passed through `string_remove_quotes` when asked. -/
theorem collect_parameters_eq (remove_quotes : Bool) (ts : List (List Nat)) :
    collect_parameters remove_quotes ts
      = (ts.takeWhile (fun t => !trailing_comment t)).map
          (fun t => if remove_quotes then string_remove_quotes t else t) := by
  induction ts with
  | nil => rfl
  | cons t rest ih =>
    by_cases h : trailing_comment t = true
    · simp [collect_parameters, h]
    · simp [collect_parameters, h, ih]

/-- A logical line whose first token holds no NUL byte: when that token is not
empty and does not start with `#`, the block gets the upper-cased token as
keyword and, as parameters, the tokens before the first trailing comment;
when it is empty or starts with `#`, keyword and parameters are `nil` and
empty. -/
theorem parse_loop_line_of_text (upcase : List Nat → List Nat)
    (yield_non_keyword_lines remove_quotes : Bool) (t0 : List Nat) (ts : List (List Nat)) :
    (0 ∉ t0 → t0 ≠ [] → t0.head? ≠ some 35 →
        parse_loop_line upcase yield_non_keyword_lines remove_quotes (t0 :: ts)
          = ⟨some (upcase t0),
              (ts.takeWhile (fun t => !trailing_comment t)).map
                (fun t => if remove_quotes then string_remove_quotes t else t),
              true⟩)
    ∧ ((t0 = [] ∨ t0.head? = some 35) →
        parse_loop_line upcase yield_non_keyword_lines remove_quotes (t0 :: ts)
          = ⟨none, [], yield_non_keyword_lines⟩) := by
  constructor
  · intro hnul hne hhash
    have hc := c_string_of_text t0 hnul
    obtain ⟨a, rest, rfl⟩ := List.exists_cons_of_ne_nil hne
    have ha : a ≠ 35 := by
      intro e
      apply hhash
      simp [e]
    have hkw : ¬ ((a :: rest).length = 0 ∨ (a :: rest).getD 0 0 = 35) := by
      simp [ha]
    cases ts with
    | nil => simp only [parse_loop_line, hc, hkw, if_false]; simp
    | cons t rest2 =>
      simp only [parse_loop_line, hc, hkw, if_false]
      simp [collect_parameters_eq]
  · intro h
    rcases h with h | h
    · subst h
      simp [parse_loop_line, c_string]
    · cases t0 with
      | nil => simp at h
      | cons a rest =>
        simp at h
        subst h
        simp [parse_loop_line, c_string]

/-- C21 (trailing comments are dropped, interpolations kept), at the input
where the code departs from it: the logical line with the tokens `k\0w` (with a
NUL byte inside) and `p`.  Line 187 copies the first token with `rb_str_cat2`,
which stops at the NUL byte, so the keyword is the upper-cased `k`, not the
upper-cased first token `K\0W`; the parameter is kept as it is. -/
theorem keyword_cut_at_nul_byte :
    parse_loop_line ascii_upcase false true [[107, 0, 119], [112]]
      = ⟨some [75], [[112]], true⟩
    ∧ ascii_upcase [107, 0, 119] = [75, 0, 87]
    ∧ (parse_loop_line ascii_upcase false true [[107, 0, 119], [112]]).keyword
      ≠ some (ascii_upcase [107, 0, 119]) := by
  decide

end ConfigParser

namespace ReducerMicroservice

/-! ## The `reduced` Hash and the statistics keys -/

theorem rb_hash_aref_aset (reduced : Hash) (key : List Nat) (value : RValue)
    (key2 : List Nat) :
    rb_hash_aref (rb_hash_aset reduced key value) key2
      = if key = key2 then some value else rb_hash_aref reduced key2 := by
  induction reduced with
  | nil => simp [rb_hash_aset, rb_hash_aref]
  | cons entry rest ih =>
    obtain ⟨k, v⟩ := entry
    by_cases hk : k = key
    · subst hk
      by_cases h2 : k = key2 <;> simp [rb_hash_aset, rb_hash_aref, h2]
    · by_cases hk2 : k = key2
      · subst hk2
        have hne : ¬ key = k := fun e => hk e.symm
        simp [rb_hash_aset, rb_hash_aref, hk, hne]
      · simp [rb_hash_aset, rb_hash_aref, hk, hk2, ih]

/-- Two statistics keys are the same only for the same item and the same
statistic. -/
theorem stat_key_injective (key1 : List Nat) (kind1 : StatKind) (key2 : List Nat)
    (kind2 : StatKind) (h : key1 ++ kind1.str = key2 ++ kind2.str) :
    key1 = key2 ∧ kind1 = kind2 := by
  have hr := congrArg List.reverse h
  cases kind1 <;> cases kind2 <;> simp [StatKind.str] at hr <;> exact ⟨hr, rfl⟩

theorem push_value_typed (reduced : Hash) (key : List Nat) (v : Int)
    (h : ∀ entry, rb_hash_aref reduced key = some entry → entry.is_array = true) :
    push_value reduced key v
      = some (rb_hash_aset reduced key (RValue.array (previous_list reduced key ++ [v]))) := by
  unfold push_value previous_list
  cases hk : rb_hash_aref reduced key with
  | none => simp
  | some entry =>
    cases entry with
    | int e =>
      have := h _ hk
      simp [RValue.is_array] at this
    | array vs => simp

theorem keep_min_typed (reduced : Hash) (key : List Nat) (v : Int)
    (h : ∀ entry, rb_hash_aref reduced key = some entry → entry.is_array = false) :
    ∃ reduced1, keep_min reduced key v = some reduced1
      ∧ ∀ key2, rb_hash_aref reduced1 key2
          = if key = key2 then some (RValue.int (min (previous_value reduced key v) v))
            else rb_hash_aref reduced key2 := by
  unfold keep_min previous_value
  cases hk : rb_hash_aref reduced key with
  | none =>
    refine ⟨rb_hash_aset reduced key (RValue.int v), by simp, ?_⟩
    intro key2
    simp [rb_hash_aref_aset]
  | some entry =>
    cases entry with
    | array vs =>
      have := h _ hk
      simp [RValue.is_array] at this
    | int e =>
      by_cases hlt : v < e
      · refine ⟨rb_hash_aset reduced key (RValue.int v), by simp only [hlt, if_true], ?_⟩
        intro key2
        rw [rb_hash_aref_aset]
        have : min e v = v := by omega
        simp [this]
      · refine ⟨reduced, by simp only [hlt, if_false], ?_⟩
        intro key2
        have : min e v = e := by omega
        by_cases hkk : key = key2
        · subst hkk
          simp [hk, this]
        · simp [hkk]

theorem keep_max_typed (reduced : Hash) (key : List Nat) (v : Int)
    (h : ∀ entry, rb_hash_aref reduced key = some entry → entry.is_array = false) :
    ∃ reduced1, keep_max reduced key v = some reduced1
      ∧ ∀ key2, rb_hash_aref reduced1 key2
          = if key = key2 then some (RValue.int (max (previous_value reduced key v) v))
            else rb_hash_aref reduced key2 := by
  unfold keep_max previous_value
  cases hk : rb_hash_aref reduced key with
  | none =>
    refine ⟨rb_hash_aset reduced key (RValue.int v), by simp, ?_⟩
    intro key2
    simp [rb_hash_aref_aset]
  | some entry =>
    cases entry with
    | array vs =>
      have := h _ hk
      simp [RValue.is_array] at this
    | int e =>
      by_cases hgt : v > e
      · refine ⟨rb_hash_aset reduced key (RValue.int v), by simp only [hgt, if_true], ?_⟩
        intro key2
        rw [rb_hash_aref_aset]
        have : max e v = v := by omega
        simp [this]
      · refine ⟨reduced, by simp only [hgt, if_false], ?_⟩
        intro key2
        have : max e v = e := by omega
        by_cases hkk : key = key2
        · subst hkk
          simp [hk, this]
        · simp [hkk]

theorem vals_kind_ne_n_kind (c1 c2 : Bool) : vals_kind c1 ≠ n_kind c2 := by
  cases c1 <;> cases c2 <;> decide

theorem vals_kind_ne_x_kind (c1 c2 : Bool) : vals_kind c1 ≠ x_kind c2 := by
  cases c1 <;> cases c2 <;> decide

theorem n_kind_ne_x_kind (c1 c2 : Bool) : n_kind c1 ≠ x_kind c2 := by
  cases c1 <;> cases c2 <;> decide

theorem vals_kind_inj (c1 c2 : Bool) (h : vals_kind c1 = vals_kind c2) : c1 = c2 := by
  cases c1 <;> cases c2 <;> simp [vals_kind] at h <;> rfl

theorem n_kind_inj (c1 c2 : Bool) (h : n_kind c1 = n_kind c2) : c1 = c2 := by
  cases c1 <;> cases c2 <;> simp [n_kind] at h <;> rfl

theorem x_kind_inj (c1 c2 : Bool) (h : x_kind c1 = x_kind c2) : c1 = c2 := by
  cases c1 <;> cases c2 <;> simp [x_kind] at h <;> rfl

theorem vals_kind_is_list (c : Bool) : (vals_kind c).is_list = true := by
  cases c <;> rfl

theorem n_kind_is_list (c : Bool) : (n_kind c).is_list = false := by
  cases c <;> rfl

theorem x_kind_is_list (c : Bool) : (x_kind c).is_list = false := by
  cases c <;> rfl

theorem stat_item_raw (key : List Nat) (value : Option Int) (reduced : Hash) :
    reducer_microservice_update_min_stats_raw_value key value reduced
      = stat_item false key value reduced := rfl

theorem stat_item_converted (key : List Nat) (value : Option Int) (reduced : Hash) :
    reducer_microservice_update_min_stats_converted_value key value reduced
      = stat_item true key value reduced := rfl

/-- What one callback call with a value does to a well-typed `reduced`: the
value is appended to the list, the minimum and the maximum are brought up to
date, every other entry stays, and `reduced` stays well typed. -/
theorem stat_item_effect (converted : Bool) (key : List Nat) (v : Int) (reduced : Hash)
    (htyped : well_typed reduced) :
    ∃ reduced1, stat_item converted key (some v) reduced = some reduced1
      ∧ rb_hash_aref reduced1 (key ++ (vals_kind converted).str)
          = some (RValue.array
              (previous_list reduced (key ++ (vals_kind converted).str) ++ [v]))
      ∧ rb_hash_aref reduced1 (key ++ (n_kind converted).str)
          = some (RValue.int
              (min (previous_value reduced (key ++ (n_kind converted).str) v) v))
      ∧ rb_hash_aref reduced1 (key ++ (x_kind converted).str)
          = some (RValue.int
              (max (previous_value reduced (key ++ (x_kind converted).str) v) v))
      ∧ (∀ k, k ≠ key ++ (vals_kind converted).str → k ≠ key ++ (n_kind converted).str →
          k ≠ key ++ (x_kind converted).str → rb_hash_aref reduced1 k = rb_hash_aref reduced k)
      ∧ well_typed reduced1 := by
  have hvn : key ++ (vals_kind converted).str ≠ key ++ (n_kind converted).str :=
    fun h => vals_kind_ne_n_kind _ _ (stat_key_injective _ _ _ _ h).2
  have hvx : key ++ (vals_kind converted).str ≠ key ++ (x_kind converted).str :=
    fun h => vals_kind_ne_x_kind _ _ (stat_key_injective _ _ _ _ h).2
  have hnx : key ++ (n_kind converted).str ≠ key ++ (x_kind converted).str :=
    fun h => n_kind_ne_x_kind _ _ (stat_key_injective _ _ _ _ h).2
  have h1 := push_value_typed reduced (key ++ (vals_kind converted).str) v
    (fun entry he => by rw [htyped _ _ _ he, vals_kind_is_list])
  obtain ⟨r2, h2, h2l⟩ := keep_min_typed
    (rb_hash_aset reduced (key ++ (vals_kind converted).str)
      (RValue.array (previous_list reduced (key ++ (vals_kind converted).str) ++ [v])))
    (key ++ (n_kind converted).str) v
    (fun entry he => by
      rw [rb_hash_aref_aset, if_neg hvn] at he
      rw [htyped _ _ _ he, n_kind_is_list])
  obtain ⟨r3, h3, h3l⟩ := keep_max_typed r2 (key ++ (x_kind converted).str) v
    (fun entry he => by
      rw [h2l, if_neg hnx, rb_hash_aref_aset, if_neg hvx] at he
      rw [htyped _ _ _ he, x_kind_is_list])
  have hpn : previous_value
      (rb_hash_aset reduced (key ++ (vals_kind converted).str)
        (RValue.array (previous_list reduced (key ++ (vals_kind converted).str) ++ [v])))
      (key ++ (n_kind converted).str) v
      = previous_value reduced (key ++ (n_kind converted).str) v := by
    unfold previous_value
    rw [rb_hash_aref_aset, if_neg hvn]
  have hpx : previous_value r2 (key ++ (x_kind converted).str) v
      = previous_value reduced (key ++ (x_kind converted).str) v := by
    unfold previous_value
    rw [h2l, if_neg hnx, rb_hash_aref_aset, if_neg hvx]
  rw [hpn] at h2l
  rw [hpx] at h3l
  have hv3 : rb_hash_aref r3 (key ++ (vals_kind converted).str)
      = some (RValue.array
          (previous_list reduced (key ++ (vals_kind converted).str) ++ [v])) := by
    rw [h3l, if_neg (Ne.symm hvx), h2l, if_neg (Ne.symm hvn), rb_hash_aref_aset, if_pos rfl]
  have hn3 : rb_hash_aref r3 (key ++ (n_kind converted).str)
      = some (RValue.int
          (min (previous_value reduced (key ++ (n_kind converted).str) v) v)) := by
    rw [h3l, if_neg (Ne.symm hnx), h2l, if_pos rfl]
  have hx3 : rb_hash_aref r3 (key ++ (x_kind converted).str)
      = some (RValue.int
          (max (previous_value reduced (key ++ (x_kind converted).str) v) v)) := by
    rw [h3l, if_pos rfl]
  have hframe : ∀ k, k ≠ key ++ (vals_kind converted).str →
      k ≠ key ++ (n_kind converted).str → k ≠ key ++ (x_kind converted).str →
      rb_hash_aref r3 k = rb_hash_aref reduced k := by
    intro k hkv hkn hkx
    rw [h3l, if_neg (Ne.symm hkx), h2l, if_neg (Ne.symm hkn), rb_hash_aref_aset,
      if_neg (Ne.symm hkv)]
  refine ⟨r3, by simp only [stat_item, h1, h2, h3], hv3, hn3, hx3, hframe, ?_⟩
  intro key2 kind2 entry he
  by_cases e1 : key2 ++ kind2.str = key ++ (vals_kind converted).str
  · rw [e1, hv3] at he
    rw [← Option.some.inj he, (stat_key_injective _ _ _ _ e1).2, vals_kind_is_list]
    rfl
  · by_cases e2 : key2 ++ kind2.str = key ++ (n_kind converted).str
    · rw [e2, hn3] at he
      rw [← Option.some.inj he, (stat_key_injective _ _ _ _ e2).2, n_kind_is_list]
      rfl
    · by_cases e3 : key2 ++ kind2.str = key ++ (x_kind converted).str
      · rw [e3, hx3] at he
        rw [← Option.some.inj he, (stat_key_injective _ _ _ _ e3).2, x_kind_is_list]
        rfl
      · rw [hframe _ e1 e2 e3] at he
        exact htyped _ _ _ he

theorem stat_keys_ne (key1 key2 : List Nat) (kind1 kind2 : StatKind) (h : key1 ≠ key2) :
    key1 ++ kind1.str ≠ key2 ++ kind2.str :=
  fun e => h (stat_key_injective _ _ _ _ e).1

theorem previous_list_congr (reduced1 reduced2 : Hash) (k : List Nat)
    (h : rb_hash_aref reduced1 k = rb_hash_aref reduced2 k) :
    previous_list reduced1 k = previous_list reduced2 k := by
  unfold previous_list
  rw [h]

theorem previous_value_congr (reduced1 reduced2 : Hash) (k : List Nat) (v : Int)
    (h : rb_hash_aref reduced1 k = rb_hash_aref reduced2 k) :
    previous_value reduced1 k v = previous_value reduced2 k v := by
  unfold previous_value
  rw [h]

/-- What `rb_hash_foreach` with one of the callbacks does to a well-typed
`reduced`, for a Hash of item values (distinct item keys): every item with a
value gets its three statistics brought up to date from their values before
the loop, and every other entry stays. -/
theorem rb_hash_foreach_effect (converted : Bool) (items : List (List Nat × Option Int))
    (reduced : Hash) (htyped : well_typed reduced) (hnodup : (items.map Prod.fst).Nodup) :
    ∃ reduced1, rb_hash_foreach (stat_item converted) items reduced = some reduced1
      ∧ well_typed reduced1
      ∧ (∀ key v, (key, some v) ∈ items →
          rb_hash_aref reduced1 (key ++ (vals_kind converted).str)
              = some (RValue.array
                  (previous_list reduced (key ++ (vals_kind converted).str) ++ [v]))
            ∧ rb_hash_aref reduced1 (key ++ (n_kind converted).str)
              = some (RValue.int
                  (min (previous_value reduced (key ++ (n_kind converted).str) v) v))
            ∧ rb_hash_aref reduced1 (key ++ (x_kind converted).str)
              = some (RValue.int
                  (max (previous_value reduced (key ++ (x_kind converted).str) v) v)))
      ∧ (∀ k, (∀ key v, (key, some v) ∈ items →
            k ≠ key ++ (vals_kind converted).str ∧ k ≠ key ++ (n_kind converted).str
              ∧ k ≠ key ++ (x_kind converted).str) →
          rb_hash_aref reduced1 k = rb_hash_aref reduced k) := by
  induction items generalizing reduced with
  | nil =>
    refine ⟨reduced, rfl, htyped, ?_, fun _ _ => rfl⟩
    intro key v hmem
    simp at hmem
  | cons item rest ih =>
    obtain ⟨key0, value0⟩ := item
    simp only [List.map_cons, List.nodup_cons] at hnodup
    obtain ⟨hnot, hrest⟩ := hnodup
    have hother : ∀ key v, (key, some v) ∈ rest → key ≠ key0 := by
      intro key v hmem e
      apply hnot
      rw [← e]
      exact List.mem_map.2 ⟨(key, some v), hmem, rfl⟩
    cases value0 with
    | none =>
      obtain ⟨r, hr, ht, ha, hb⟩ := ih reduced htyped hrest
      refine ⟨r, by simp only [rb_hash_foreach, stat_item, hr], ht, ?_, ?_⟩
      · intro key v hmem
        rcases List.mem_cons.1 hmem with e | hmem
        · simp at e
        · exact ha key v hmem
      · intro k hk
        exact hb k (fun key v hmem => hk key v (List.mem_cons_of_mem _ hmem))
    | some v0 =>
      obtain ⟨r1, h1, hv1, hn1, hx1, hframe, ht1⟩ :=
        stat_item_effect converted key0 v0 reduced htyped
      obtain ⟨r, hr, ht, ha, hb⟩ := ih r1 ht1 hrest
      refine ⟨r, by simp only [rb_hash_foreach, h1, hr], ht, ?_, ?_⟩
      · intro key v hmem
        rcases List.mem_cons.1 hmem with e | hmem
        · simp only [Prod.mk.injEq, Option.some.injEq] at e
          obtain ⟨e1, e2⟩ := e
          subst e1 e2
          have hfree : ∀ (kind : StatKind) key2 v2, (key2, some v2) ∈ rest →
              key ++ kind.str ≠ key2 ++ (vals_kind converted).str
                ∧ key ++ kind.str ≠ key2 ++ (n_kind converted).str
                ∧ key ++ kind.str ≠ key2 ++ (x_kind converted).str := by
            intro kind key2 v2 hmem2
            have hne : key ≠ key2 := fun e => hother key2 v2 hmem2 e.symm
            exact ⟨stat_keys_ne _ _ _ _ hne, stat_keys_ne _ _ _ _ hne,
              stat_keys_ne _ _ _ _ hne⟩
          rw [hb _ (hfree _), hb _ (hfree _), hb _ (hfree _)]
          exact ⟨hv1, hn1, hx1⟩
        · have hne : key ≠ key0 := hother key v hmem
          have hsame : ∀ (kind : StatKind),
              rb_hash_aref r1 (key ++ kind.str) = rb_hash_aref reduced (key ++ kind.str) :=
            fun kind => hframe _ (stat_keys_ne _ _ _ _ hne) (stat_keys_ne _ _ _ _ hne)
              (stat_keys_ne _ _ _ _ hne)
          obtain ⟨a1, a2, a3⟩ := ha key v hmem
          rw [previous_list_congr _ _ _ (hsame _)] at a1
          rw [previous_value_congr _ _ _ _ (hsame _)] at a2 a3
          exact ⟨a1, a2, a3⟩
      · intro k hk
        obtain ⟨k1, k2, k3⟩ := hk key0 v0 (List.mem_cons_self _ _)
        rw [hb k (fun key v hmem => hk key v (List.mem_cons_of_mem _ hmem))]
        exact hframe k k1 k2 k3

/-! ## Minimum and maximum agree with the collected values -/

/-- The statistics keys of two items, or of the raw and the converted values
of one item, are all different. -/
theorem role_keys_ne (c1 c2 : Bool) (key1 key2 : List Nat) (k1 k2 : StatKind)
    (h1 : k1 = vals_kind c1 ∨ k1 = n_kind c1 ∨ k1 = x_kind c1)
    (h2 : k2 = vals_kind c2 ∨ k2 = n_kind c2 ∨ k2 = x_kind c2)
    (hne : ¬ (c1 = c2 ∧ key1 = key2)) : key1 ++ k1.str ≠ key2 ++ k2.str := by
  intro e
  obtain ⟨ek, ekind⟩ := stat_key_injective _ _ _ _ e
  apply hne
  refine ⟨?_, ek⟩
  subst ekind
  cases c1 <;> cases c2 <;> rcases h1 with rfl | rfl | rfl <;>
    simp [vals_kind, n_kind, x_kind] at h2 ⊢

theorem stats_agree_congr (reduced1 reduced2 : Hash) (c : Bool) (key : List Nat)
    (h : ∀ kind : StatKind, (kind = vals_kind c ∨ kind = n_kind c ∨ kind = x_kind c) →
      rb_hash_aref reduced1 (key ++ kind.str) = rb_hash_aref reduced2 (key ++ kind.str))
    (ha : stats_agree reduced2 c key) : stats_agree reduced1 c key := by
  unfold stats_agree at ha ⊢
  rw [h _ (Or.inl rfl), h _ (Or.inr (Or.inl rfl)), h _ (Or.inr (Or.inr rfl))]
  exact ha

theorem stats_agree_typed (reduced : Hash) (h : ∀ c key, stats_agree reduced c key) :
    well_typed reduced := by
  intro key kind entry he
  cases kind with
  | VALS =>
    rcases h false key with ⟨h1, _, _⟩ | ⟨vs, m, x, h1, _, _, _, _⟩
    · simp only [vals_kind] at h1
      rw [show (if false = true then StatKind.CVALS else StatKind.VALS) = StatKind.VALS from rfl,
        he] at h1
      simp at h1
    · simp only [vals_kind] at h1
      rw [show (if false = true then StatKind.CVALS else StatKind.VALS) = StatKind.VALS from rfl,
        he] at h1
      rw [Option.some.inj h1]
      rfl
  | CVALS =>
    rcases h true key with ⟨h1, _, _⟩ | ⟨vs, m, x, h1, _, _, _, _⟩
    · simp only [vals_kind, if_true] at h1
      rw [he] at h1
      simp at h1
    · simp only [vals_kind, if_true] at h1
      rw [he] at h1
      rw [Option.some.inj h1]
      rfl
  | N =>
    rcases h false key with ⟨_, h1, _⟩ | ⟨vs, m, x, _, h1, _, _, _⟩
    · rw [show key ++ (n_kind false).str = key ++ StatKind.N.str from rfl, he] at h1
      simp at h1
    · rw [show key ++ (n_kind false).str = key ++ StatKind.N.str from rfl, he] at h1
      rw [Option.some.inj h1]
      rfl
  | CN =>
    rcases h true key with ⟨_, h1, _⟩ | ⟨vs, m, x, _, h1, _, _, _⟩
    · rw [show key ++ (n_kind true).str = key ++ StatKind.CN.str from rfl, he] at h1
      simp at h1
    · rw [show key ++ (n_kind true).str = key ++ StatKind.CN.str from rfl, he] at h1
      rw [Option.some.inj h1]
      rfl
  | X =>
    rcases h false key with ⟨_, _, h1⟩ | ⟨vs, m, x, _, _, h1, _, _⟩
    · rw [show key ++ (x_kind false).str = key ++ StatKind.X.str from rfl, he] at h1
      simp at h1
    · rw [show key ++ (x_kind false).str = key ++ StatKind.X.str from rfl, he] at h1
      rw [Option.some.inj h1]
      rfl
  | CX =>
    rcases h true key with ⟨_, _, h1⟩ | ⟨vs, m, x, _, _, h1, _, _⟩
    · rw [show key ++ (x_kind true).str = key ++ StatKind.CX.str from rfl, he] at h1
      simp at h1
    · rw [show key ++ (x_kind true).str = key ++ StatKind.CX.str from rfl, he] at h1
      rw [Option.some.inj h1]
      rfl

theorem is_min_of_append (m v : Int) (vs : List Int) (h : is_min_of m vs) :
    is_min_of (min m v) (vs ++ [v]) := by
  obtain ⟨hm, hle⟩ := h
  constructor
  · by_cases hmv : m ≤ v
    · rw [min_eq_left hmv]
      exact List.mem_append_left _ hm
    · rw [min_eq_right (by omega)]
      simp
  · intro y hy
    rcases List.mem_append.1 hy with hy | hy
    · exact le_trans (min_le_left _ _) (hle y hy)
    · simp at hy
      subst hy
      exact min_le_right _ _

theorem is_max_of_append (x v : Int) (vs : List Int) (h : is_max_of x vs) :
    is_max_of (max x v) (vs ++ [v]) := by
  obtain ⟨hm, hle⟩ := h
  constructor
  · by_cases hxv : v ≤ x
    · rw [max_eq_left hxv]
      exact List.mem_append_left _ hm
    · rw [max_eq_right (by omega)]
      simp
  · intro y hy
    rcases List.mem_append.1 hy with hy | hy
    · exact le_trans (hle y hy) (le_max_left _ _)
    · simp at hy
      subst hy
      exact le_max_right _ _

/-- One callback call with a value keeps the statistics of every item in
agreement. -/
theorem stat_item_agree (c : Bool) (key : List Nat) (v : Int) (reduced : Hash)
    (hinv : ∀ c2 key2, stats_agree reduced c2 key2) :
    ∃ reduced1, stat_item c key (some v) reduced = some reduced1
      ∧ ∀ c2 key2, stats_agree reduced1 c2 key2 := by
  obtain ⟨r, hr, hv, hn, hx, hframe, _⟩ :=
    stat_item_effect c key v reduced (stats_agree_typed _ hinv)
  refine ⟨r, hr, ?_⟩
  intro c2 key2
  by_cases hsame : c2 = c ∧ key2 = key
  · obtain ⟨e1, e2⟩ := hsame
    subst e1 e2
    rcases hinv c2 key2 with ⟨a1, a2, a3⟩ | ⟨vs, m, x, a1, a2, a3, hmin, hmax⟩
    · have p1 : previous_list reduced (key2 ++ (vals_kind c2).str) = [] := by
        unfold previous_list
        rw [a1]
      have p2 : previous_value reduced (key2 ++ (n_kind c2).str) v = v := by
        unfold previous_value
        rw [a2]
      have p3 : previous_value reduced (key2 ++ (x_kind c2).str) v = v := by
        unfold previous_value
        rw [a3]
      rw [p1] at hv
      rw [p2] at hn
      rw [p3] at hx
      exact Or.inr ⟨[v], v, v, by simpa using hv, by simpa using hn, by simpa using hx,
        ⟨by simp, by simp⟩, ⟨by simp, by simp⟩⟩
    · have p1 : previous_list reduced (key2 ++ (vals_kind c2).str) = vs := by
        unfold previous_list
        rw [a1]
      have p2 : previous_value reduced (key2 ++ (n_kind c2).str) v = m := by
        unfold previous_value
        rw [a2]
      have p3 : previous_value reduced (key2 ++ (x_kind c2).str) v = x := by
        unfold previous_value
        rw [a3]
      rw [p1] at hv
      rw [p2] at hn
      rw [p3] at hx
      exact Or.inr ⟨vs ++ [v], min m v, max x v, hv, hn, hx, is_min_of_append m v vs hmin,
        is_max_of_append x v vs hmax⟩
  · refine stats_agree_congr r reduced c2 key2 ?_ (hinv c2 key2)
    intro kind hkind
    exact hframe _
      (role_keys_ne c2 c key2 key kind _ hkind (Or.inl rfl) hsame)
      (role_keys_ne c2 c key2 key kind _ hkind (Or.inr (Or.inl rfl)) hsame)
      (role_keys_ne c2 c key2 key kind _ hkind (Or.inr (Or.inr rfl)) hsame)

theorem rb_hash_foreach_agree (c : Bool) (items : List (List Nat × Option Int))
    (reduced : Hash) (hinv : ∀ c2 key2, stats_agree reduced c2 key2) :
    ∃ reduced1, rb_hash_foreach (stat_item c) items reduced = some reduced1
      ∧ ∀ c2 key2, stats_agree reduced1 c2 key2 := by
  induction items generalizing reduced with
  | nil => exact ⟨reduced, rfl, hinv⟩
  | cons item rest ih =>
    obtain ⟨key, value⟩ := item
    cases value with
    | none =>
      obtain ⟨r, hr, hi⟩ := ih reduced hinv
      exact ⟨r, by simp only [rb_hash_foreach, stat_item, hr], hi⟩
    | some v =>
      obtain ⟨r1, h1, hi1⟩ := stat_item_agree c key v reduced hinv
      obtain ⟨r, hr, hi⟩ := ih r1 hi1
      exact ⟨r, by simp only [rb_hash_foreach, h1, hr], hi⟩

theorem update_min_stats_unfold (reduced : Hash)
    (raw_values converted_values : List (List Nat × Option Int)) :
    reducer_microservice_update_min_stats reduced raw_values converted_values
      = match rb_hash_foreach (stat_item false) raw_values reduced with
        | none => none
        | some reduced1 => rb_hash_foreach (stat_item true) converted_values reduced1 := rfl

theorem update_all_agree (updates : List (List (List Nat × Option Int)
      × List (List Nat × Option Int))) (reduced : Hash)
    (hinv : ∀ c2 key2, stats_agree reduced c2 key2) :
    ∃ reduced1, update_all reduced updates = some reduced1
      ∧ ∀ c2 key2, stats_agree reduced1 c2 key2 := by
  induction updates generalizing reduced with
  | nil => exact ⟨reduced, rfl, hinv⟩
  | cons update rest ih =>
    obtain ⟨raw_values, converted_values⟩ := update
    obtain ⟨r1, h1, hi1⟩ := rb_hash_foreach_agree false raw_values reduced hinv
    obtain ⟨r2, h2, hi2⟩ := rb_hash_foreach_agree true converted_values r1 hi1
    obtain ⟨r, hr, hi⟩ := ih r2 hi2
    refine ⟨r, ?_, hi⟩
    simp only [update_all, update_min_stats_unfold, h1, h2, hr]

/-- What one `update_min_stats` call does to a well-typed `reduced`, for raw
and converted values with distinct item keys each. -/
theorem update_min_stats_effect (reduced : Hash)
    (raw_values converted_values : List (List Nat × Option Int))
    (htyped : well_typed reduced)
    (hraw : (raw_values.map Prod.fst).Nodup)
    (hconv : (converted_values.map Prod.fst).Nodup) :
    ∃ reduced1,
      reducer_microservice_update_min_stats reduced raw_values converted_values = some reduced1
      ∧ (∀ (c : Bool) key v,
          (key, some v) ∈ (if c then converted_values else raw_values) →
          rb_hash_aref reduced1 (key ++ (vals_kind c).str)
              = some (RValue.array (previous_list reduced (key ++ (vals_kind c).str) ++ [v]))
            ∧ rb_hash_aref reduced1 (key ++ (n_kind c).str)
              = some (RValue.int (min (previous_value reduced (key ++ (n_kind c).str) v) v))
            ∧ rb_hash_aref reduced1 (key ++ (x_kind c).str)
              = some (RValue.int (max (previous_value reduced (key ++ (x_kind c).str) v) v)))
      ∧ (∀ k, (∀ (c : Bool) key v,
            (key, some v) ∈ (if c then converted_values else raw_values) →
            k ≠ key ++ (vals_kind c).str ∧ k ≠ key ++ (n_kind c).str
              ∧ k ≠ key ++ (x_kind c).str) →
          rb_hash_aref reduced1 k = rb_hash_aref reduced k) := by
  obtain ⟨r1, h1, ht1, a1, b1⟩ := rb_hash_foreach_effect false raw_values reduced htyped hraw
  obtain ⟨r2, h2, _, a2, b2⟩ := rb_hash_foreach_effect true converted_values r1 ht1 hconv
  refine ⟨r2, by simp only [update_min_stats_unfold, h1, h2], ?_, ?_⟩
  · intro c key v hmem
    cases c with
    | false =>
      simp only [Bool.false_eq_true, if_false] at hmem
      have hfree : ∀ kind : StatKind,
          (kind = vals_kind false ∨ kind = n_kind false ∨ kind = x_kind false) →
          rb_hash_aref r2 (key ++ kind.str) = rb_hash_aref r1 (key ++ kind.str) := by
        intro kind hkind
        apply b2
        intro key2 v2 _
        have hne : ¬ (false = true ∧ key = key2) := by simp
        exact ⟨role_keys_ne false true key key2 kind _ hkind (Or.inl rfl) hne,
          role_keys_ne false true key key2 kind _ hkind (Or.inr (Or.inl rfl)) hne,
          role_keys_ne false true key key2 kind _ hkind (Or.inr (Or.inr rfl)) hne⟩
      rw [hfree _ (Or.inl rfl), hfree _ (Or.inr (Or.inl rfl)), hfree _ (Or.inr (Or.inr rfl))]
      exact a1 key v hmem
    | true =>
      simp only [if_true] at hmem
      have hfree : ∀ kind : StatKind,
          (kind = vals_kind true ∨ kind = n_kind true ∨ kind = x_kind true) →
          rb_hash_aref r1 (key ++ kind.str) = rb_hash_aref reduced (key ++ kind.str) := by
        intro kind hkind
        apply b1
        intro key2 v2 _
        have hne : ¬ (true = false ∧ key = key2) := by simp
        exact ⟨role_keys_ne true false key key2 kind _ hkind (Or.inl rfl) hne,
          role_keys_ne true false key key2 kind _ hkind (Or.inr (Or.inl rfl)) hne,
          role_keys_ne true false key key2 kind _ hkind (Or.inr (Or.inr rfl)) hne⟩
      obtain ⟨e1, e2, e3⟩ := a2 key v hmem
      rw [previous_list_congr _ _ _ (hfree _ (Or.inl rfl))] at e1
      rw [previous_value_congr _ _ _ _ (hfree _ (Or.inr (Or.inl rfl)))] at e2
      rw [previous_value_congr _ _ _ _ (hfree _ (Or.inr (Or.inr rfl)))] at e3
      exact ⟨e1, e2, e3⟩
  · intro k hk
    rw [b2 k (fun key v hmem => hk true key v (by simpa using hmem)),
      b1 k (fun key v hmem => hk false key v (by simpa using hmem))]

/-- The statistics keys of an item without a value are not those of any item
with a value. -/
theorem nil_item_keys_free (raw_values converted_values : List (List Nat × Option Int))
    (hraw : (raw_values.map Prod.fst).Nodup)
    (hconv : (converted_values.map Prod.fst).Nodup)
    (c0 : Bool) (key0 : List Nat)
    (hnil : (key0, none) ∈ (if c0 then converted_values else raw_values))
    (kind : StatKind) (hkind : kind = vals_kind c0 ∨ kind = n_kind c0 ∨ kind = x_kind c0)
    (c : Bool) (key : List Nat) (v : Int)
    (hmem : (key, some v) ∈ (if c then converted_values else raw_values)) :
    key0 ++ kind.str ≠ key ++ (vals_kind c).str ∧ key0 ++ kind.str ≠ key ++ (n_kind c).str
      ∧ key0 ++ kind.str ≠ key ++ (x_kind c).str := by
  have hne : ¬ (c0 = c ∧ key0 = key) := by
    rintro ⟨e1, e2⟩
    subst e1 e2
    have hnd : ((if c0 then converted_values else raw_values).map Prod.fst).Nodup := by
      cases c0
      · simpa using hraw
      · simpa using hconv
    have := List.inj_on_of_nodup_map hnd hnil hmem rfl
    simp at this
  exact ⟨role_keys_ne c0 c key0 key kind _ hkind (Or.inl rfl) hne,
    role_keys_ne c0 c key0 key kind _ hkind (Or.inr (Or.inl rfl)) hne,
    role_keys_ne c0 c key0 key kind _ hkind (Or.inr (Or.inr rfl)) hne⟩

theorem stats_agree_empty (c : Bool) (key : List Nat) : stats_agree [] c key :=
  Or.inl ⟨rfl, rfl, rfl⟩

theorem well_typed_empty : well_typed [] := by
  intro key kind entry he
  simp [rb_hash_aref] at he

/-- C22 (min/max statistics track the collected values): on a well-typed
`reduced`, for raw and converted values with distinct item keys,
`update_min_stats` returns; for every item with a raw value `v` the entry
`K__VALS` is its list before (empty if absent) with `v` appended, `K__N` is the
minimum and `K__X` the maximum of the value before (`v` if absent) and `v`, and
likewise for the converted values under `K__CVALS`, `K__CN`, `K__CX`; the
entries of items without a value and all other entries stay.  Two statistics
keys are equal only for the same item and the same statistic.  Hence, from the
empty `reduced`, after any sequence of updates the entry `K__N` is the minimum
and `K__X` the maximum of the list `K__VALS`, and likewise for the converted
keys. -/
theorem min_max_stats_track_values (reduced : Hash)
    (raw_values converted_values : List (List Nat × Option Int))
    (htyped : well_typed reduced)
    (hraw : (raw_values.map Prod.fst).Nodup)
    (hconv : (converted_values.map Prod.fst).Nodup) :
    (∃ reduced1,
      reducer_microservice_update_min_stats reduced raw_values converted_values = some reduced1
      ∧ (∀ key v, (key, some v) ∈ raw_values →
          rb_hash_aref reduced1 (key ++ StatKind.VALS.str)
              = some (RValue.array (previous_list reduced (key ++ StatKind.VALS.str) ++ [v]))
            ∧ rb_hash_aref reduced1 (key ++ StatKind.N.str)
              = some (RValue.int (min (previous_value reduced (key ++ StatKind.N.str) v) v))
            ∧ rb_hash_aref reduced1 (key ++ StatKind.X.str)
              = some (RValue.int (max (previous_value reduced (key ++ StatKind.X.str) v) v)))
      ∧ (∀ key v, (key, some v) ∈ converted_values →
          rb_hash_aref reduced1 (key ++ StatKind.CVALS.str)
              = some (RValue.array (previous_list reduced (key ++ StatKind.CVALS.str) ++ [v]))
            ∧ rb_hash_aref reduced1 (key ++ StatKind.CN.str)
              = some (RValue.int (min (previous_value reduced (key ++ StatKind.CN.str) v) v))
            ∧ rb_hash_aref reduced1 (key ++ StatKind.CX.str)
              = some (RValue.int (max (previous_value reduced (key ++ StatKind.CX.str) v) v)))
      ∧ (∀ key kind, (key, none) ∈ raw_values →
          kind = StatKind.VALS ∨ kind = StatKind.N ∨ kind = StatKind.X →
          rb_hash_aref reduced1 (key ++ kind.str) = rb_hash_aref reduced (key ++ kind.str))
      ∧ (∀ key kind, (key, none) ∈ converted_values →
          kind = StatKind.CVALS ∨ kind = StatKind.CN ∨ kind = StatKind.CX →
          rb_hash_aref reduced1 (key ++ kind.str) = rb_hash_aref reduced (key ++ kind.str))
      ∧ (∀ k,
          (∀ key v, (key, some v) ∈ raw_values →
            k ≠ key ++ StatKind.VALS.str ∧ k ≠ key ++ StatKind.N.str
              ∧ k ≠ key ++ StatKind.X.str) →
          (∀ key v, (key, some v) ∈ converted_values →
            k ≠ key ++ StatKind.CVALS.str ∧ k ≠ key ++ StatKind.CN.str
              ∧ k ≠ key ++ StatKind.CX.str) →
          rb_hash_aref reduced1 k = rb_hash_aref reduced k))
    ∧ (∀ (key1 : List Nat) (kind1 : StatKind) (key2 : List Nat) (kind2 : StatKind),
        key1 ++ kind1.str = key2 ++ kind2.str → key1 = key2 ∧ kind1 = kind2)
    ∧ (∀ updates, ∃ final, update_all [] updates = some final
        ∧ ∀ key,
          (∀ vs, rb_hash_aref final (key ++ StatKind.VALS.str) = some (RValue.array vs) →
            ∃ m x, rb_hash_aref final (key ++ StatKind.N.str) = some (RValue.int m)
              ∧ rb_hash_aref final (key ++ StatKind.X.str) = some (RValue.int x)
              ∧ is_min_of m vs ∧ is_max_of x vs)
          ∧ (∀ vs, rb_hash_aref final (key ++ StatKind.CVALS.str) = some (RValue.array vs) →
            ∃ m x, rb_hash_aref final (key ++ StatKind.CN.str) = some (RValue.int m)
              ∧ rb_hash_aref final (key ++ StatKind.CX.str) = some (RValue.int x)
              ∧ is_min_of m vs ∧ is_max_of x vs)) := by
  refine ⟨?_, stat_key_injective, ?_⟩
  · obtain ⟨r, hr, ha, hb⟩ :=
      update_min_stats_effect reduced raw_values converted_values htyped hraw hconv
    refine ⟨r, hr, fun key v hmem => ha false key v hmem,
      fun key v hmem => ha true key v hmem, ?_, ?_, ?_⟩
    · intro key kind hnil hkind
      apply hb
      intro c key2 v hmem
      exact nil_item_keys_free raw_values converted_values hraw hconv false key hnil kind
        hkind c key2 v hmem
    · intro key kind hnil hkind
      apply hb
      intro c key2 v hmem
      exact nil_item_keys_free raw_values converted_values hraw hconv true key hnil kind
        hkind c key2 v hmem
    · intro k h1 h2
      apply hb
      intro c key v hmem
      cases c with
      | false => exact h1 key v hmem
      | true => exact h2 key v hmem
  · intro updates
    obtain ⟨final, hf, hinv⟩ := update_all_agree updates [] stats_agree_empty
    refine ⟨final, hf, ?_⟩
    intro key
    constructor
    · intro vs hvs
      rcases hinv false key with ⟨h1, _, _⟩ | ⟨vs2, m, x, h1, h2, h3, hmin, hmax⟩
      · have h1b : rb_hash_aref final (key ++ StatKind.VALS.str) = none := h1
        rw [hvs] at h1b
        simp at h1b
      · have h1b : rb_hash_aref final (key ++ StatKind.VALS.str) = some (RValue.array vs2) :=
          h1
        rw [hvs] at h1b
        simp at h1b
        subst h1b
        exact ⟨m, x, h2, h3, hmin, hmax⟩
    · intro vs hvs
      rcases hinv true key with ⟨h1, _, _⟩ | ⟨vs2, m, x, h1, h2, h3, hmin, hmax⟩
      · have h1b : rb_hash_aref final (key ++ StatKind.CVALS.str) = none := h1
        rw [hvs] at h1b
        simp at h1b
      · have h1b : rb_hash_aref final (key ++ StatKind.CVALS.str)
            = some (RValue.array vs2) := h1
        rw [hvs] at h1b
        simp at h1b
        subst h1b
        exact ⟨m, x, h2, h3, hmin, hmax⟩

/-- C22, witness: two updates of the item `A` from the empty `reduced`, with the
raw values 5 and 3 and the converted values 7 and 9 (the item `B` has no
value): `A__VALS` is `[5, 3]` with `A__N` = 3 and `A__X` = 5, and `A__CVALS` is
`[7, 9]` with `A__CN` = 7 and `A__CX` = 9. -/
theorem min_max_stats_track_values_witness :
    update_all [] [([([65], some 5), ([66], none)], [([65], some 7)]),
        ([([65], some 3)], [([65], some 9)])]
      = some [([65, 95, 95, 86, 65, 76, 83], RValue.array [5, 3]),
          ([65, 95, 95, 78], RValue.int 3),
          ([65, 95, 95, 88], RValue.int 5),
          ([65, 95, 95, 67, 86, 65, 76, 83], RValue.array [7, 9]),
          ([65, 95, 95, 67, 78], RValue.int 7),
          ([65, 95, 95, 67, 88], RValue.int 9)]
    ∧ ∃ reduced1,
        reducer_microservice_update_min_stats [] [([65], some 5), ([66], none)]
            [([65], some 7)] = some reduced1
        ∧ rb_hash_aref reduced1 ([65] ++ StatKind.VALS.str)
            = some (RValue.array (previous_list [] ([65] ++ StatKind.VALS.str) ++ [5]))
        ∧ rb_hash_aref reduced1 ([65] ++ StatKind.CN.str)
            = some (RValue.int (min (previous_value [] ([65] ++ StatKind.CN.str) 7) 7)) := by
  refine ⟨by decide, ?_⟩
  obtain ⟨reduced1, h1, hraw, hconv, _⟩ :=
    (min_max_stats_track_values [] [([65], some 5), ([66], none)] [([65], some 7)]
      well_typed_empty (by decide) (by decide)).1
  exact ⟨reduced1, h1, (hraw [65] 5 (by decide)).1, (hconv [65] 7 (by decide)).2.1⟩

end ReducerMicroservice
